import Mathlib

/-!
Verification development for the memx crossbar synthesis engine.

The Python sources are shallowly embedded below.  Each definition carries a
reference to the source location it models (file and, where useful, line
numbers).  Python dictionaries are modelled as insertion-ordered association
lists, mutation of an object is modelled by returning the post-state of the
receiver, and an operation that can raise a Python exception is modelled as
an Option-valued function where none corresponds to the raised exception.
-/

namespace MemX

/-- Modelled from the spec: the class LITERAL of
core/expressions/BooleanExpression.py is not under src/.  Per the spec's data
model, a literal is a pair of an atom and a polarity, with equality by the
pair, and the two reserved atoms True and False denote fixed connectivity. -/
structure Literal where
  atom : String
  positive : Bool
deriving DecidableEq, Repr

/-- The constant literal TRUE() (always conducting). -/
def TRUEL : Literal := ⟨"True", true⟩

/-- The constant literal FALSE() (never conducting). -/
def FALSEL : Literal := ⟨"False", false⟩

/-- Modelled from the spec: the class Memristor of
core/hardware/Memristor.py is not under src/.  Per the spec's data model a
memristor cell is (row, column, layer, literal, stuck_at_fault). -/
structure Memristor where
  row : Nat
  column : Nat
  literal : Literal
  layer : Nat
  stuck_at_fault : Bool
deriving DecidableEq, Repr

/-- Lookup in an insertion-ordered association list modelling a Python dict
(dict[k], dict.get(k)). -/
def dictGet? (d : List (String × Nat × Nat)) (k : String) : Option (Nat × Nat) :=
  match d with
  | [] => none
  | (k', v) :: rest => if k' = k then some v else dictGet? rest k

/-- Assignment dict[k] = v on an insertion-ordered association list: an
existing key keeps its position, a fresh key is appended. -/
def dictSet (d : List (String × Nat × Nat)) (k : String) (v : Nat × Nat) :
    List (String × Nat × Nat) :=
  match d with
  | [] => [(k, v)]
  | (k', v') :: rest => if k' = k then (k', v) :: rest else (k', v') :: dictSet rest k v

/-- Crossbar state, per Crossbar.__init__ (core/hardware/Crossbar.py lines
23-37): dimensions, a 3D cell array matrix[layer][row][column] (modelled as a
total function; Python indexing outside the declared bounds raises, and every
claim below only touches in-bounds cells), and the two rail dictionaries
mapping a function name to a (layer, index) pair.  The name field models the
Component name used only by to_string (None prints as the string None). -/
structure Xbar where
  rows : Nat
  columns : Nat
  layers : Nat
  matrix : Nat → Nat → Nat → Memristor
  input_nanowires : List (String × Nat × Nat)
  output_nanowires : List (String × Nat × Nat)
  name : String

/-- Crossbar construction MemristorCrossbar(rows, columns): every cell starts
as Memristor(r, c, FALSE(), l) and both rail dicts start empty
(Crossbar.__init__, lines 31-37). -/
def mkXbar (rows columns : Nat) (layers : Nat := 1) : Xbar where
  rows := rows
  columns := columns
  layers := layers
  matrix := fun l r c => ⟨r, c, FALSEL, l, false⟩
  input_nanowires := []
  output_nanowires := []
  name := "None"

/-- Crossbar.set_memristor (lines 232-243): matrix[layer][row][column] :=
Memristor(row, column, literal, layer).  The stuck_at_fault parameter of the
Python method is ignored by its body (the Memristor constructor is called
without it), so the written cell always has stuck_at_fault = False. -/
def Xbar.set_memristor (cb : Xbar) (row column : Nat) (literal : Literal)
    (layer : Nat := 0) : Xbar :=
  { cb with matrix := fun l r c =>
      if l = layer ∧ r = row ∧ c = column then ⟨row, column, literal, layer, false⟩
      else cb.matrix l r c }

/-- Crossbar.set_input_nanowire (lines 106-107). -/
def Xbar.set_input_nanowire (cb : Xbar) (f : String) (nanowire : Nat)
    (layer : Nat := 0) : Xbar :=
  { cb with input_nanowires := dictSet cb.input_nanowires f (layer, nanowire) }

/-- Crossbar.set_output_nanowire (lines 109-110). -/
def Xbar.set_output_nanowire (cb : Xbar) (f : String) (nanowire : Nat)
    (layer : Nat := 0) : Xbar :=
  { cb with output_nanowires := dictSet cb.output_nanowires f (layer, nanowire) }

/-- The per-cell rewriting of MemristorCrossbar.instantiate
(core/hardware/Crossbar.py lines 647-668): a cell whose literal has a
non-constant atom and is not stuck-at-fault is overwritten (via
set_memristor, hence with a fresh non-stuck Memristor) by the constant TRUE
or FALSE literal selected by the literal's polarity and the instance's value
for the atom; all other in-bounds cells, and everything out of bounds, are
left as they are.  The value b is the instance's (assumed present) value. -/
def instCell (inst : String → Option Bool) (m : Memristor) : Memristor :=
  if m.literal.atom ≠ "True" ∧ m.literal.atom ≠ "False" ∧ m.stuck_at_fault = false then
    match inst m.literal.atom with
    | some b =>
        if m.literal.positive = b then ⟨m.row, m.column, TRUEL, m.layer, false⟩
        else ⟨m.row, m.column, FALSEL, m.layer, false⟩
    | none => m
  else m

/-- The matrix of the receiver after MemristorCrossbar.instantiate succeeds. -/
def instMatrix (cb : Xbar) (inst : String → Option Bool) : Nat → Nat → Nat → Memristor :=
  fun l r c =>
    if l < cb.layers ∧ r < cb.rows ∧ c < cb.columns then instCell inst (cb.matrix l r c)
    else cb.matrix l r c

/-- instance[variable_name] raises KeyError when some in-bounds, non-constant
and non-stuck cell's atom is missing from the instance; this predicate says no
such cell exists. -/
def instOK (cb : Xbar) (inst : String → Option Bool) : Bool :=
  (List.range cb.layers).all fun l =>
    (List.range cb.rows).all fun r =>
      (List.range cb.columns).all fun c =>
        let m := cb.matrix l r c
        !(m.literal.atom ≠ "True" ∧ m.literal.atom ≠ "False" ∧ m.stuck_at_fault = false)
          || (inst m.literal.atom).isSome

/-- The receiver's value after a successful instantiate. -/
def instResult (cb : Xbar) (inst : String → Option Bool) : Xbar :=
  { cb with matrix := instMatrix cb inst }

/-- The crossbar returned by MemristorCrossbar.instantiate (lines 647-668).
The Python method mutates the receiver cell by cell and returns self, so this
value is simultaneously the return value and the post-state of the receiver.
A missing atom raises KeyError, modelled as none (the partial mutation
performed before the Python exception escapes is not observed by any caller
in the repository, which either covers all atoms or lets the exception
propagate). -/
def instantiateX (cb : Xbar) (inst : String → Option Bool) : Option Xbar :=
  if instOK cb inst then some (instResult cb inst) else none

/-- One row-clearing pass of MemristorCrossbar.eval (lines 673-676): for every
input nanowire (layer, row) of a function other than the selected one, every
cell of that row is set to FALSE() via set_memristor. -/
def forceRow (cb : Xbar) (layer row : Nat) : Xbar :=
  (List.range cb.columns).foldl (fun acc c => acc.set_memristor row c FALSEL layer) cb

/-- The receiver's state after the forcing loop at the start of
MemristorCrossbar.eval (lines 670-676): rows of all input rails other than
input_function are forced to FALSE().  The Python loop mutates self before
taking the internal copy, and nothing ever restores these cells. -/
def forceInputRows (cb : Xbar) (input_function : String) : Xbar :=
  cb.input_nanowires.foldl
    (fun acc entry =>
      if input_function ≠ entry.1 then forceRow acc entry.2.1 entry.2.2 else acc)
    cb

/-! Bipartite graph of a crossbar, per Crossbar.graph (lines 112-156).  The
networkx node named by the format string with an L, a layer and an index is
modelled as the pair (layer, index) (the naming is a bijection).  A cell
(l, r, c) contributes one edge: between (l, r) and (l + 1, c) when l is even,
and between (l, c) and (l + 1, r) when l is odd.  No two cells contribute the
same unordered node pair, so the simple-graph overwrite semantics of
add_edge never merges two distinct cells. -/

/-- The two endpoints of the graph edge contributed by cell (l, r, c). -/
def edgeNodes (l r c : Nat) : (Nat × Nat) × (Nat × Nat) :=
  if l % 2 = 0 then ((l, r), (l + 1, c)) else ((l, c), (l + 1, r))

/-- The node set of the graph (edges are added for every cell, before any
pruning, and remove_edges_from keeps nodes). -/
def nodesOf (cb : Xbar) : List (Nat × Nat) :=
  ((List.range cb.layers).flatMap fun l =>
    (List.range cb.rows).flatMap fun r =>
      (List.range cb.columns).flatMap fun c =>
        [(edgeNodes l r c).1, (edgeNodes l r c).2]).dedup

/-- Adjacency of the pruned graph used by MemristorCrossbar.eval (lines
680-683): only edges whose cell attribute is atom True with positive
polarity survive remove_edges_from.  The graph is undirected, hence the
symmetric match on the endpoint pair. -/
def condAdj (cb : Xbar) (u v : Nat × Nat) : Bool :=
  (List.range cb.layers).any fun l =>
    (List.range cb.rows).any fun r =>
      (List.range cb.columns).any fun c =>
        (cb.matrix l r c).literal = TRUEL ∧
          (edgeNodes l r c = (u, v) ∨ edgeNodes l r c = (v, u))

/-! Reachability (networkx has_path) computed as a fixpoint of neighbourhood
expansion inside the finite node list; hasPathB is proved below to agree with
the reflexive-transitive closure of the adjacency relation. -/

/-- One expansion step: the members of the universe that are already in s or
adjacent to a member of s. -/
def closureStep {α : Type} [DecidableEq α] (nodes : List α) (adj : α → α → Bool)
    (s : List α) : List α :=
  nodes.filter fun v => s.contains v || s.any fun u => adj u v

/-- Iterated expansion. -/
def closureIter {α : Type} [DecidableEq α] (nodes : List α) (adj : α → α → Bool) :
    Nat → List α → List α
  | 0, s => s
  | n + 1, s => closureStep nodes adj (closureIter nodes adj n s)

/-- All nodes reachable from src: nodes.length expansion steps suffice. -/
def reachList {α : Type} [DecidableEq α] (nodes : List α) (adj : α → α → Bool)
    (src : α) : List α :=
  closureIter nodes adj nodes.length [src]

/-- Decidable path existence (networkx has_path on the pruned graph). -/
def hasPathB {α : Type} [DecidableEq α] (nodes : List α) (adj : α → α → Bool)
    (src dst : α) : Bool :=
  (reachList nodes adj src).contains dst

/-- MemristorCrossbar.eval (lines 670-692).  The receiver is first mutated by
the forcing loop (forceInputRows); the internal __copy__ deep-copies the
matrix, so instantiating the copy is modelled by instantiating the forced
crossbar.  has_path raises NodeNotFound when the source or sink node is
absent from the graph, modelled as none; KeyError from a missing input rail
or instance atom likewise.  The returned dict maps each output variable to
path existence between its rail node and the selected input rail node. -/
def evalXbar (cb : Xbar) (inst : String → Option Bool) (input_function : String) :
    Option (List (String × Bool)) :=
  let forced := forceInputRows cb input_function
  match instantiateX forced inst with
  | none => none
  | some icb =>
    let nodes := nodesOf icb
    icb.output_nanowires.mapM fun entry =>
      match dictGet? icb.input_nanowires input_function with
      | none => none
      | some (li, ii) =>
        if (entry.2.1, entry.2.2) ∈ nodes ∧ (li, ii) ∈ nodes then
          some (entry.1, hasPathB nodes (condAdj icb) (entry.2.1, entry.2.2) (li, ii))
        else none

/-! Topology evaluation, per Topology.eval (core/hardware/Topology.py lines
245-262).  The evaluations dict is modelled as a function to Option Bool
(None models an absent key); the crossbar list is the topological order
produced by topological_sort. -/

/-- The running evaluations map. -/
def Evals : Type := String → Option Bool

/-- Dict assignment evaluations[k] = v. -/
def evUpdate (e : Evals) (k : String) (v : Bool) : Evals :=
  fun x => if x = k then some v else e x

/-- The merge loop of Topology.eval (lines 254-260): a key already present
with a truthy value is kept; otherwise the new value is written. -/
def mergeEval (e : Evals) (res : List (String × Bool)) : Evals :=
  res.foldl
    (fun acc kv =>
      match acc kv.1 with
      | some cur => if cur then acc else evUpdate acc kv.1 kv.2
      | none => evUpdate acc kv.1 kv.2)
    e

/-- The inner loop of Topology.eval over one crossbar's input rail names
(lines 251-260): a rail whose name is truthy in evaluations triggers
node.eval, which mutates the node (forceInputRows) and whose result dict is
merged; nodes state is threaded because eval is called once per true rail. -/
def topoStepInputs (cb : Xbar) (ev : Evals) (names : List String) :
    Option (Xbar × Evals) :=
  names.foldlM
    (fun st nm =>
      if st.2 nm = some true then
        match evalXbar st.1 st.2 nm with
        | none => none
        | some res => some (forceInputRows st.1 nm, mergeEval st.2 res)
      else some st)
    (cb, ev)

/-- The outer loop of Topology.eval from an arbitrary running state: each
crossbar of the topological order is processed in turn. -/
def topoEvalFrom (cbs : List Xbar) (ev : Evals) : Option Evals :=
  cbs.foldlM
    (fun ev cb =>
      (topoStepInputs cb ev (cb.input_nanowires.map (fun p => p.1))).map fun st => st.2)
    ev

/-- Topology.eval (lines 245-262): the state is seeded with the synthetic
input_function entry and then the instance (instance entries may overwrite
the synthetic one, as dict.update does). -/
def topoEval (cbs : List Xbar) (instance_ : List (String × Bool)) (f : String) :
    Option Evals :=
  topoEvalFrom cbs
    (instance_.foldl (fun acc kv => evUpdate acc kv.1 kv.2) (evUpdate (fun _ => none) f true))

/-! ISO capacity fitting, per ISO.find (src/synth/ISO.py lines 204-248).  A
pattern's statistics are the triple (occurrence count, rows, columns) =
(len(bdds), nodes, edges); the binary search runs over the list of statistic
triples sorted descending.  Python floor division by the positive constant 2
coincides with Euclidean division, and Python's negative-index slicing is
modelled by pyTake / pyDrop. -/

/-- A pattern's statistics [count, rows, columns] as built at line 108. -/
def Stat : Type := Nat × Nat × Nat

/-- Python slice values[:i] for an arbitrary (possibly negative) int index. -/
def pyTake {α : Type} (xs : List α) (i : Int) : List α :=
  if 0 ≤ i then xs.take i.toNat else xs.take ((xs.length : Int) + i).toNat

/-- Python slice values[i:] for an arbitrary (possibly negative) int index. -/
def pyDrop {α : Type} (xs : List α) (i : Int) : List α :=
  if 0 ≤ i then xs.drop i.toNat else xs.drop ((xs.length : Int) + i).toNat

/-- Python max over a list of naturals (the code only evaluates it on
nonempty lists, where the 0 default never matters). -/
def listMax (l : List Nat) : Nat := l.foldl max 0

/-- sum(x[1] for x in values[:mid]) — the fixed patterns' total rows. -/
def fixedRowsAt (vals : List Stat) (mid : Int) : Nat :=
  ((pyTake vals mid).map fun x => x.2.1).sum

/-- sum(x[2] for x in values[:mid]) — the fixed patterns' total columns. -/
def fixedColsAt (vals : List Stat) (mid : Int) : Nat :=
  ((pyTake vals mid).map fun x => x.2.2).sum

/-- The largest row count among the non-prefix (variable) patterns, 0 when
mid equals the list length (lines 222-227). -/
def largestVarRowAt (vals : List Stat) (mid : Int) : Nat :=
  if mid = (vals.length : Int) then 0 else listMax ((pyDrop vals mid).map fun x => x.2.1)

/-- The largest column count among the non-prefix patterns. -/
def largestVarColAt (vals : List Stat) (mid : Int) : Nat :=
  if mid = (vals.length : Int) then 0 else listMax ((pyDrop vals mid).map fun x => x.2.2)

/-- The in-loop feasibility test of the binary search (lines 216-233): the
fixed sums must not exceed D, and neither may the fixed sums plus the largest
remaining pattern dimension. -/
def feasibleSliceB (vals : List Stat) (D : Nat) (mid : Int) : Bool :=
  if fixedRowsAt vals mid > D ∨ fixedColsAt vals mid > D then false
  else if fixedRowsAt vals mid + largestVarRowAt vals mid > D ∨
      fixedColsAt vals mid + largestVarColAt vals mid > D then false
  else true

/-- Feasibility of a natural prefix length. -/
def feasibleB (vals : List Stat) (D : Nat) (k : Nat) : Bool :=
  feasibleSliceB vals D (k : Int)

/-- The binary-search loop (lines 212-233).  At every entry the checked mid
is floor((low + high) / 2) of the current bounds, and the function returns
the final recomputed mid once low exceeds high.  Lean's Int division is
Euclidean, which for the positive divisor 2 coincides with Python's floor
division. -/
def bsearchGo (vals : List Stat) (D : Nat) (low high : Int) : Int :=
  if h : low ≤ high then
    if feasibleSliceB vals D ((low + high) / 2) then
      bsearchGo vals D ((low + high) / 2 + 1) high
    else bsearchGo vals D low ((low + high) / 2 - 1)
  else (low + high) / 2
termination_by (high + 1 - low).toNat
decreasing_by
  · omega
  · omega

/-- The post-loop re-check (lines 235-248): recompute the fixed sums and the
largest variable dimensions at the final mid (negative-index slicing applies
when mid is -1) and raise when a budget is exceeded. -/
def finalCheckB (vals : List Stat) (D : Nat) (mid : Int) : Bool :=
  if fixedRowsAt vals mid + largestVarRowAt vals mid > D ∨
      fixedColsAt vals mid + largestVarColAt vals mid > D then false
  else true

/-- Capacity fitting: binary search from low = 0, high = len(values), then
the final re-check; none models the fatal "Binary search failed." error. -/
def isoFit (vals : List Stat) (D : Nat) : Option Int :=
  if finalCheckB vals D (bsearchGo vals D 0 (vals.length : Int)) then
    some (bsearchGo vals D 0 (vals.length : Int))
  else none

/-- Python list comparison, descending: a is lexicographically at least b on
(count, rows, columns). -/
def statGe (a b : Stat) : Prop :=
  b.1 < a.1 ∨ (a.1 = b.1 ∧ (b.2.1 < a.2.1 ∨ (a.2.1 = b.2.1 ∧ b.2.2 ≤ a.2.2)))

/-- The sortedness produced by sorted(..., reverse=True) at line 208. -/
def sortedDescStats (vals : List Stat) : Prop := List.Chain' statGe vals

/-! ISO instruction emission, per ISO.find lines 250-291.  Python iterates
sets; the iteration order of a set is not specified, so the model fixes the
insertion order (first occurrence).  The residency invariant proved below
holds for any iteration order. -/

/-- Pattern-schedule instructions (classes LOAD and EVAL, lines 10-43). -/
inductive Instr where
  | LOAD : String → Instr
  | EVAL : String → Instr
deriving DecidableEq, Repr

/-- Order-preserving deduplication (first occurrences), the model of
iterating a Python set built from a list. -/
def dedupFirstAux {α : Type} [DecidableEq α] (seen : List α) : List α → List α
  | [] => []
  | a :: as =>
    if seen.contains a then dedupFirstAux seen as else a :: dedupFirstAux (a :: seen) as

/-- set(xs), iterated in first-occurrence order. -/
def dedupFirst {α : Type} [DecidableEq α] (xs : List α) : List α := dedupFirstAux [] xs

/-- A pattern hash is available when it is fixed or currently resident in
the single reconfigurable slot (lines 270-275). -/
def availB (fixed : List String) (var : Option String) (x : String) : Bool :=
  fixed.contains x || var = some x

/-- The cycles emitted for one generation (lines 265-290): one EVAL cycle for
the available patterns present (emitted only when nonempty), then a LOAD
cycle followed by an EVAL cycle for every missed pattern. -/
def emitGenCycles (fixed : List String) (var : Option String) (g : List String) :
    List (List Instr) :=
  (if (dedupFirst g).filter (fun x => availB fixed var x) = [] then []
   else [((dedupFirst g).filter fun x => availB fixed var x).map Instr.EVAL]) ++
    ((dedupFirst g).filter fun x => !availB fixed var x).flatMap
      fun m => [[Instr.LOAD m], [Instr.EVAL m]]

/-- The resident variable pattern after a generation: the last missed pattern
loaded, if any (line 286). -/
def nextVarOf (fixed : List String) (var : Option String) (g : List String) :
    Option String :=
  match ((dedupFirst g).filter fun x => !availB fixed var x).getLast? with
  | some m => some m
  | none => var

/-- The generation loop of the emission phase (lines 265-290). -/
def emitLoop (fixed : List String) : Option String → List (List String) → List (List Instr)
  | _, [] => []
  | var, g :: rest => emitGenCycles fixed var g ++ emitLoop fixed (nextVarOf fixed var g) rest

/-- The full emitted schedule (lines 253-290): an initial cycle loading the
mid fixed patterns (emitted only when nonempty), then the generation loop
over the input-to-output generations, each generation given by the pattern
hashes of its nodes. -/
def emitSchedule (keys : List String) (mid : Nat) (gens : List (List String)) :
    List (List Instr) :=
  (if keys.take mid = [] then [] else [(keys.take mid).map Instr.LOAD]) ++
    emitLoop (keys.take mid) none gens

/-! Generation leveling, per ISO.find lines 142-169.  A generation is a list
of nodes; f maps a node to its pattern hash (root_node_to_hash; the
generations were prefiltered at lines 79-86 to nodes that have a hash, so f
is total).  Python's hash_to_nodes dict of lists is modelled by groupByHash.
The auxiliary counting lemmas directly below only serve the termination of
the worklist recursion. -/

/-- Append x to the group of hash h, creating the group at the end if new
(dict-of-lists insertion). -/
def groupUpd {α : Type} (acc : List (String × List α)) (h : String) (x : α) :
    List (String × List α) :=
  match acc with
  | [] => [(h, [x])]
  | (k, xs) :: rest =>
    if k = h then (k, xs ++ [x]) :: rest else (k, xs) :: groupUpd rest h x

/-- hash_to_nodes: group a generation's nodes by hash, groups in
first-occurrence order, members in generation order (lines 147-153). -/
def groupByHash {α : Type} (f : α → String) (g : List α) : List (String × List α) :=
  g.foldl (fun acc x => groupUpd acc (f x) x) []

/-- kept_nodes: the first node of every group (lines 160-164). -/
def keptOf {α : Type} (f : α → String) (g : List α) : List α :=
  (groupByHash f g).filterMap fun p => p.2.head?

/-- pushed_down_nodes: the remaining nodes of every group (lines 160-165). -/
def pushedOf {α : Type} (f : α → String) (g : List α) : List α :=
  (groupByHash f g).flatMap fun p => p.2.tail

theorem groupUpd_sumLen {α : Type} (acc : List (String × List α)) (h : String) (x : α) :
    ((groupUpd acc h x).map fun p => p.2.length).sum
      = ((acc.map fun p => p.2.length).sum) + 1 := by
  induction acc with
  | nil => simp [groupUpd]
  | cons p rest ih =>
    obtain ⟨k, xs⟩ := p
    by_cases hk : k = h <;> simp [groupUpd, hk, ih] <;> omega

theorem groupUpd_ne_nil {α : Type} (acc : List (String × List α)) (h : String) (x : α)
    (hne : ∀ p ∈ acc, p.2 ≠ []) : ∀ p ∈ groupUpd acc h x, p.2 ≠ [] := by
  induction acc with
  | nil => simp [groupUpd]
  | cons q rest ih =>
    obtain ⟨k, xs⟩ := q
    intro p hp
    by_cases hk : k = h
    · simp [groupUpd, hk] at hp
      rcases hp with hp | hp
      · subst hp; simp
      · exact hne p (by simp [hp])
    · simp [groupUpd, hk] at hp
      rcases hp with hp | hp
      · subst hp; exact hne (k, xs) (by simp)
      · exact ih (fun q hq => hne q (by simp [hq])) p hp

theorem groupByHash_aux {α : Type} (f : α → String) (g : List α)
    (acc : List (String × List α)) (hne : ∀ p ∈ acc, p.2 ≠ []) :
    ((g.foldl (fun acc x => groupUpd acc (f x) x) acc).map fun p => p.2.length).sum
        = ((acc.map fun p => p.2.length).sum) + g.length
      ∧ ∀ p ∈ g.foldl (fun acc x => groupUpd acc (f x) x) acc, p.2 ≠ [] := by
  induction g generalizing acc with
  | nil => exact ⟨by simp, hne⟩
  | cons a as ih =>
    have h1 := groupUpd_sumLen acc (f a) a
    have h2 := groupUpd_ne_nil acc (f a) a hne
    obtain ⟨ha, hb⟩ := ih (groupUpd acc (f a) a) h2
    refine ⟨?_, hb⟩
    simp only [List.foldl_cons, List.length_cons]
    omega

theorem groupByHash_sumLen {α : Type} (f : α → String) (g : List α) :
    ((groupByHash f g).map fun p => p.2.length).sum = g.length := by
  simpa [groupByHash] using (groupByHash_aux f g [] (by simp)).1

theorem groupByHash_ne_nil {α : Type} (f : α → String) (g : List α) :
    ∀ p ∈ groupByHash f g, p.2 ≠ [] := by
  simpa [groupByHash] using (groupByHash_aux f g [] (by simp)).2

theorem groups_split_len {α : Type} (groups : List (String × List α))
    (hne : ∀ p ∈ groups, p.2 ≠ []) :
    (groups.filterMap fun p => p.2.head?).length
        = groups.length
      ∧ (groups.filterMap fun p => p.2.head?).length
          + (groups.flatMap fun p => p.2.tail).length
        = (groups.map fun p => p.2.length).sum := by
  induction groups with
  | nil => simp
  | cons p rest ih =>
    obtain ⟨k, xs⟩ := p
    have hx : xs ≠ [] := hne (k, xs) (by simp)
    obtain ⟨y, ys, rfl⟩ := List.exists_cons_of_ne_nil hx
    obtain ⟨ih1, ih2⟩ := ih fun q hq => hne q (by simp [hq])
    constructor
    · simp only [List.filterMap_cons, List.head?_cons, List.length_cons]
      omega
    · simp only [List.filterMap_cons, List.flatMap_cons, List.head?_cons, List.tail_cons,
        List.map_cons, List.sum_cons, List.length_cons, List.length_append]
      omega

theorem kept_add_pushed_len {α : Type} (f : α → String) (g : List α) :
    (keptOf f g).length + (pushedOf f g).length = g.length := by
  have h := (groups_split_len (groupByHash f g) (groupByHash_ne_nil f g)).2
  have hsum := groupByHash_sumLen f g
  unfold keptOf pushedOf
  omega

theorem pushed_lt_len {α : Type} (f : α → String) (g : List α)
    (h : pushedOf f g ≠ []) : (pushedOf f g).length < g.length := by
  have hk := kept_add_pushed_len f g
  have hpos : 0 < (pushedOf f g).length := List.length_pos.mpr h
  have hgb : groupByHash f g ≠ [] := by
    intro hnil
    apply h
    unfold pushedOf
    rw [hnil]
    simp
  have hkept : (keptOf f g).length = (groupByHash f g).length := by
    have := (groups_split_len (groupByHash f g) (groupByHash_ne_nil f g)).1
    unfold keptOf
    exact this
  have : 0 < (groupByHash f g).length := List.length_pos.mpr hgb
  omega

/-- The worklist loop (lines 144-168): pop the first generation, keep the
first node of every hash, push the duplicates down into a freshly inserted
generation processed next (they depend on the following generation, so they
cannot be merged into it), and iterate to a fixed point. -/
def levelGens {α : Type} (f : α → String) : List (List α) → List (List α)
  | [] => []
  | g :: rest =>
    if h : (pushedOf f g).isEmpty then keptOf f g :: levelGens f rest
    else keptOf f g :: levelGens f (pushedOf f g :: rest)
termination_by gens => ((gens.map List.length).sum, gens.length)
decreasing_by
  · simp only [List.map_cons, List.sum_cons, List.length_cons]
    rcases Nat.eq_zero_or_pos g.length with h0 | h0
    · rw [h0]
      simp only [Nat.zero_add]
      exact Prod.Lex.right _ (Nat.lt_succ_self _)
    · exact Prod.Lex.left _ _ (by omega)
  · have hne : pushedOf f g ≠ [] := by
      intro hnil
      simp [hnil] at h
    have hlt := pushed_lt_len f g hne
    simp only [List.map_cons, List.sum_cons, List.length_cons]
    exact Prod.Lex.left _ _ (by omega)

/-! VH labeling and the 2D mapper, per VHLabeling.label (src/synth/VHLabeling.py
lines 44-97) and CrossbarMapping2D (src/synth/CrossbarMapping2D.py).  Diagram
nodes are identified by naturals; xV and xH are the 0/1 solution values of the
per-node ILP binaries x[v][V] and x[v][H]. -/

/-- A 0/1 ILP binary as an integer. -/
def bI (x : Bool) : Int := if x then 1 else 0

/-- The pair of big-M style edge constraints emitted at VHLabeling.py lines
67-69, with the edge's orientation binary s existentially quantified over its
0..1 bounds. -/
def vhEdgeConstraint (xV xH : Nat → Bool) (a b : Nat) : Prop :=
  ∃ s : Int, 0 ≤ s ∧ s ≤ 1 ∧
    bI (xV a) + bI (xH b) ≥ 2 - 2 * s ∧
    bI (xH a) + bI (xV b) ≥ 2 - 2 * (1 - s)

/-- The labeling value built at VHLabeling.py lines 90-97: +1 for V, -1 for
H, 0 for both (and 0 for a node with neither binary set). -/
def labelingOf (xV xH : Nat → Bool) (n : Nat) : Int :=
  (if xV n then 1 else 0) + (if xH n then -1 else 0)

/-- The horizontal list of CrossbarMapping2D._node_assignment (lines 26-39):
nodes whose labeling is -1 or 0, in node order. -/
def horizontalOf (nodes : List Nat) (xV xH : Nat → Bool) : List Nat :=
  nodes.filter fun n => labelingOf xV xH n ≠ 1

/-- The vertical list of _node_assignment: labeling 1 or 0, in node order. -/
def verticalOf (nodes : List Nat) (xV xH : Nat → Bool) : List Nat :=
  nodes.filter fun n => labelingOf xV xH n ≠ -1

/-- The set_memristor calls of CrossbarMapping2D._edge_assignment (lines
69-105) for one edge (a, b) with literal lit: cell positions (row, column)
with the literal written there, including the always-conducting diagonal
cell written for a Both endpoint. -/
def edgeCells (hl vl : List Nat) (a b : Nat) (lit : Literal) :
    List (Nat × Nat × Literal) :=
  if a ∈ hl ∧ a ∈ vl then
    (if b ∈ hl then [(hl.indexOf b, vl.indexOf a, lit)]
     else [(hl.indexOf a, vl.indexOf b, lit)]) ++ [(hl.indexOf a, vl.indexOf a, TRUEL)]
  else if b ∈ hl ∧ b ∈ vl then
    (if a ∈ hl then [(hl.indexOf a, vl.indexOf b, lit)]
     else [(hl.indexOf b, vl.indexOf a, lit)]) ++ [(hl.indexOf b, vl.indexOf b, TRUEL)]
  else if a ∈ hl ∧ b ∈ vl then [(hl.indexOf a, vl.indexOf b, lit)]
  else [(hl.indexOf b, vl.indexOf a, lit)]

/-! The direct (baseline) mapper, per ChakrabortyAutomatedSynthesis.map
(src/synth/ChakrabortyAutomatedSynthesis.py lines 24-95).  A decision-diagram
node carries its variable, root/terminal flags and output variables; the DAG
is a node list (iteration order) plus a directed edge list with literals. -/

structure DDNodeData where
  var_name : String
  root : Bool
  terminal : Bool
  output_variables : List String
deriving DecidableEq, Repr

structure DDiagram where
  nodes : List (Nat × DDNodeData)
  edges : List (Nat × Nat × Literal)
deriving DecidableEq, Repr

/-- Integer-keyed dict assignment (node_layers). -/
def natDictSet (d : List (Nat × Nat)) (k v : Nat) : List (Nat × Nat) :=
  match d with
  | [] => [(k, v)]
  | (k', v') :: rest => if k' = k then (k', v) :: rest else (k', v') :: natDictSet rest k v

/-- Integer-keyed dict lookup; the mapper only looks up keys it inserted, so
the 0 default models no reachable behaviour. -/
def natDictGetD (d : List (Nat × Nat)) (k : Nat) : Nat :=
  match d with
  | [] => 0
  | (k', v) :: rest => if k' = k then v else natDictGetD rest k

/-- The first enumeration pass (lines 37-52): assign each node a row r in
iteration order, register root rows under each output variable and terminal
rows under the node's variable. -/
def chakFirst (d : DDiagram) :
    List (String × Nat × Nat) × List (String × Nat × Nat) × List (Nat × Nat) :=
  (d.nodes.foldl
    (fun (st : Nat × List (String × Nat × Nat) × List (String × Nat × Nat) × List (Nat × Nat)) nd =>
      let r := st.1
      let roots :=
        if nd.2.root then nd.2.output_variables.foldl (fun acc ov => dictSet acc ov (0, r)) st.2.2.1
        else st.2.2.1
      let ins := if nd.2.terminal then dictSet st.2.1 nd.2.var_name (0, r) else st.2.1
      (r + 1, ins, roots, natDictSet st.2.2.2 nd.1 r))
    (0, [], [], [])).2

/-- dag.edges(current_node): the out-edges of a node in edge-list order. -/
def outEdgesOf (d : DDiagram) (n : Nat) : List (Nat × Nat × Literal) :=
  d.edges.filter fun e => e.1 = n

/-- The placement pass (lines 54-79): per node, the last positive out-edge
child and the last negative out-edge child (the Python loop overwrites);
each existing child places (variable, polarity) on the current node's row
and the always-conducting constant on the child's row, in a fresh column. -/
def chakSecond (d : DDiagram) (lay : List (Nat × Nat)) (cb0 : Xbar) : Xbar :=
  (d.nodes.foldl
    (fun (st : Nat × Xbar) nd =>
      let outs := outEdgesOf d nd.1
      let pos := (outs.filter fun e => e.2.2.positive).getLast?
      let neg := (outs.filter fun e => !e.2.2.positive).getLast?
      let st1 :=
        match pos with
        | some e =>
            (st.1 + 1,
              (st.2.set_memristor (natDictGetD lay nd.1) st.1 ⟨nd.2.var_name, true⟩).set_memristor
                (natDictGetD lay e.2.1) st.1 TRUEL)
        | none => st
      match neg with
      | some e =>
          (st1.1 + 1,
            (st1.2.set_memristor (natDictGetD lay nd.1) st1.1 ⟨nd.2.var_name, false⟩).set_memristor
              (natDictGetD lay e.2.1) st1.1 TRUEL)
      | none => st1)
    (0, cb0)).2

/-- ChakrabortyAutomatedSynthesis.map (lines 24-95): a rows x columns
crossbar with rows = node count and columns = edge count, populated by the
placement pass, input rails registered for terminals and output rails for
roots (lines 81-85). -/
def chakrabortyMap (d : DDiagram) : Xbar :=
  let fst := chakFirst d
  let cb1 := chakSecond d fst.2.2 (mkXbar d.nodes.length d.edges.length)
  let cb2 := fst.1.foldl (fun cb p => cb.set_input_nanowire p.1 p.2.2 p.2.1) cb1
  fst.2.1.foldl (fun cb p => cb.set_output_nanowire p.1 p.2.2 p.2.1) cb2

/-! The crossbar text format, per MemristorCrossbar.to_string (lines 408-435)
and MemristorCrossbar.from_string (lines 333-406).  Content is modelled as a
list of lines, each a list of characters without its terminator: to_string
emits exactly one line per += (header lines end in a newline, grid rows in a
carriage return plus newline), and from_string iterates
splitlines(keepends=True).  The kept terminators are dropped from the model:
they are whitespace for split(), never part of a checked prefix, and match no
alternative of the literal regex, so they change no parse result for lines
whose payload is terminator-free (which the round-trip hypotheses below
guarantee, and which holds for the counterexample). -/

/-- Python str.split() whitespace (the characters occurring in this format). -/
def isSpaceC (c : Char) : Bool :=
  c = ' ' ∨ c = '\t' ∨ c = '\n' ∨ c = '\r'

/-- Accumulator pass of whitespace splitting: current token chars reversed. -/
def splitWsAux (acc : List Char) : List Char → List (List Char)
  | [] => if acc.isEmpty then [] else [acc.reverse]
  | c :: cs =>
    if isSpaceC c then
      if acc.isEmpty then splitWsAux [] cs else acc.reverse :: splitWsAux [] cs
    else splitWsAux (c :: acc) cs

/-- Python line.split(): whitespace-separated tokens, empties dropped. -/
def splitWs (s : List Char) : List (List Char) := splitWsAux [] s

/-- Python line.split(tab): fields between tabs, empties kept. -/
def splitTabAux (acc : List Char) : List Char → List (List Char)
  | [] => [acc.reverse]
  | c :: cs => if c = '\t' then acc.reverse :: splitTabAux [] cs else splitTabAux (c :: acc) cs

def splitTab (s : List Char) : List (List Char) := splitTabAux [] s

/-- str.startswith. -/
def startsWithL : List Char → List Char → Bool
  | [], _ => true
  | _ :: _, [] => false
  | p :: ps, c :: cs => p = c && startsWithL ps cs

/-- Join tokens with a separator character (the inverse of splitting). -/
def joinSep (sep : Char) : List (List Char) → List Char
  | [] => []
  | [t] => t
  | t :: ts => t ++ sep :: joinSep sep ts

/-- The decimal digit character of d < 10. -/
def digitChar (d : Nat) : Char :=
  if d = 0 then '0' else if d = 1 then '1' else if d = 2 then '2'
  else if d = 3 then '3' else if d = 4 then '4' else if d = 5 then '5'
  else if d = 6 then '6' else if d = 7 then '7' else if d = 8 then '8' else '9'

/-- Decimal digits of n, most significant first (fuel-driven so that the
definition stays structural; natToDecL supplies enough fuel). -/
def natDigitsAux : Nat → Nat → List Char
  | 0, _ => []
  | fuel + 1, n =>
    if n < 10 then [digitChar n]
    else natDigitsAux fuel (n / 10) ++ [digitChar (n % 10)]

/-- Python str(n) for a natural number. -/
def natToDecL (n : Nat) : List Char := natDigitsAux (n + 1) n

def isDigitC (c : Char) : Bool := '0' ≤ c ∧ c ≤ '9'

/-- Python int(s) on the strings this serializer emits: a nonempty digit
string (int() additionally accepts signs and surrounding whitespace, which
to_string never produces). -/
def decToNatL (s : List Char) : Option Nat :=
  if s ≠ [] ∧ s.all isDigitC then
    some (s.foldl (fun acc c => acc * 10 + (c.toNat - 48)) 0)
  else none

/-- The character class of the literal-token regular expression at line 390:
an opening or closing square bracket, a lowercase letter or a digit. -/
def isClassC (c : Char) : Bool :=
  c = '[' ∨ c = ']' ∨ ('a' ≤ c ∧ c ≤ 'z') ∨ ('0' ≤ c ∧ c ≤ '9')

/-- One attempted match of the regex alternation
dash, 0, 1, class+, tilde class+ at a fixed start position, alternatives
tried in order, each greedy. -/
def matchAt : List Char → Option (List Char)
  | [] => none
  | c :: rest =>
    if c = '-' then some ['-']
    else if c = '0' then some ['0']
    else if c = '1' then some ['1']
    else if isClassC c then some (c :: rest.takeWhile isClassC)
    else if c = '~' then
      match rest with
      | [] => none
      | c2 :: rest2 => if isClassC c2 then some ('~' :: c2 :: rest2.takeWhile isClassC) else none
    else none

/-- re.findall(...)[0]: the first match, scanning start positions left to
right; none models the IndexError on a token without any match. -/
def findFirstTok : List Char → Option (List Char)
  | [] => none
  | c :: rest =>
    match matchAt (c :: rest) with
    | some t => some t
    | none => findFirstTok rest

/-- The token-to-literal cases of from_string lines 390-398. -/
def parseRawLiteral (tok : List Char) : Option Literal :=
  match findFirstTok tok with
  | none => none
  | some raw =>
    if raw = ['0'] then some FALSEL
    else if raw = ['1'] then some TRUEL
    else
      match raw with
      | '~' :: rest => some ⟨String.mk rest, false⟩
      | _ => some ⟨String.mk raw, true⟩

/-- Modelled from the spec: _literal_representation (lines 44-50) renders the
two constants as 1 and 0; any other literal is rendered by LITERAL.__str__,
whose class (core/expressions/BooleanExpression.py) is not under src/ — per
the spec's text-format, tokens are atom for a positive and tilde atom for a
negative literal. -/
def litToToken (l : Literal) : List Char :=
  if l = TRUEL then ['1']
  else if l = FALSEL then ['0']
  else if l.positive then l.atom.data
  else '~' :: l.atom.data

/-- MemristorCrossbar.get_input_variables (lines 297-306): the atoms of all
non-constant cell literals (a Python set, modelled in first-occurrence
order). -/
def inputVariablesOf (cb : Xbar) : List String :=
  dedupFirst
    ((List.range cb.layers).flatMap fun l =>
      (List.range cb.rows).flatMap fun r =>
        ((List.range cb.columns).filterMap fun c =>
          let lit := (cb.matrix l r c).literal
          if lit ≠ TRUEL ∧ lit ≠ FALSEL then some lit.atom else none))

/-- A rail declaration line of to_string (lines 416-425): the layer is
omitted when 0. -/
def railLine (tag : List Char) (p : String × Nat × Nat) : List Char :=
  if p.2.1 = 0 then tag ++ p.1.data ++ ' ' :: natToDecL p.2.2
  else tag ++ p.1.data ++ ' ' :: natToDecL p.2.1 ++ ' ' :: natToDecL p.2.2

/-- One grid row of to_string (lines 427-433): the layer-0 literals of the
row, tab separated. -/
def gridLineOf (cb : Xbar) (r : Nat) : List Char :=
  joinSep '\t' ((List.range cb.columns).map fun c => litToToken (cb.matrix 0 r c).literal)

/-- MemristorCrossbar.to_string (lines 408-435) as a list of lines.  A row
contributes a line exactly when the crossbar has at least one column (with
zero columns the Python loop appends no characters at all). -/
def toStringLines (cb : Xbar) : List (List Char) :=
  [".model ".data ++ cb.name.data,
   ".type memristor".data,
   ".inputs ".data ++ joinSep ' ' ((inputVariablesOf cb).map String.data),
   ".outputs ".data ++ joinSep ' ' (cb.output_nanowires.map fun p => p.1.data),
   ".rows ".data ++ natToDecL cb.rows,
   ".columns ".data ++ natToDecL cb.columns]
  ++ cb.input_nanowires.map (railLine ".i ".data)
  ++ cb.output_nanowires.map (railLine ".o ".data)
  ++ [".xbar".data]
  ++ (if cb.columns = 0 then [] else (List.range cb.rows).map (gridLineOf cb))
  ++ [".end".data]

/-- The header values collected by the first loop of from_string
(lines 335-378). -/
structure HeaderSt where
  rows : Nat
  cols : Nat
  ins : List (String × Nat × Nat)
  outs : List (String × Nat × Nat)

/-- One line of the first loop of from_string (lines 343-373): the elif
chain over the directive prefixes; a tuple-unpacking failure, a
non-numeric int() argument or a wrong .i/.o arity raises (none).  The
.inputs directive only sets the untracked input_variables attribute. -/
def headerStep (st : Option HeaderSt) (line : List Char) : Option HeaderSt :=
  match st with
  | none => none
  | some h =>
    if startsWithL ".rows ".data line then
      match splitWs line with
      | [_, raw] => (decToNatL raw).map fun n => { h with rows := n }
      | _ => none
    else if startsWithL ".columns ".data line then
      match splitWs line with
      | [_, raw] => (decToNatL raw).map fun n => { h with cols := n }
      | _ => none
    else if startsWithL ".inputs ".data line then some h
    else if startsWithL ".i ".data line then
      match splitWs line with
      | [_, nm, idx] => (decToNatL idx).map fun i => { h with ins := dictSet h.ins (String.mk nm) (0, i) }
      | [_, nm, l, idx] =>
        match decToNatL l, decToNatL idx with
        | some ln, some i => some { h with ins := dictSet h.ins (String.mk nm) (ln, i) }
        | _, _ => none
      | _ => none
    else if startsWithL ".o ".data line then
      match splitWs line with
      | [_, nm, idx] => (decToNatL idx).map fun i => { h with outs := dictSet h.outs (String.mk nm) (0, i) }
      | [_, nm, l, idx] =>
        match decToNatL l, decToNatL idx with
        | some ln, some i => some { h with outs := dictSet h.outs (String.mk nm) (ln, i) }
        | _, _ => none
      | _ => none
    else some h

/-- Writing the literals of one grid line at row r, columns counted from 0
(lines 388-401); a token the regex cannot match raises (none). -/
def gridTokensStep (r : Nat) (st : Option (Nat × Xbar)) (tok : List Char) :
    Option (Nat × Xbar) :=
  match st with
  | none => none
  | some (c, cb) => (parseRawLiteral tok).map fun lit => (c + 1, cb.set_memristor r c lit)

/-- One line of the second loop of from_string (lines 383-404): .end clears
the read flag before the body, the body tab-splits and writes a row when
reading, and .xbar sets the read flag afterwards. -/
def gridLineStep (st : Option (Nat × Bool × Xbar)) (line : List Char) :
    Option (Nat × Bool × Xbar) :=
  match st with
  | none => none
  | some (r, rd, cb) =>
    let rd1 := if startsWithL ".end".data line then false else rd
    if rd1 then
      match (splitTab line).foldl (gridTokensStep r) (some (0, cb)) with
      | none => none
      | some (_, cb') => some (r + 1, if startsWithL ".xbar".data line then true else rd1, cb')
    else some (r, if startsWithL ".xbar".data line then true else rd1, cb)

/-- MemristorCrossbar.from_string (lines 333-406): the header loop, then a
fresh rows x columns crossbar carrying the parsed rail dicts (and default
FALSE cells), then the grid loop.  The parsed input_variables attribute is
not tracked (nothing in the claims reads it). -/
def fromStringLines (lines : List (List Char)) : Option Xbar :=
  match lines.foldl headerStep (some ⟨0, 0, [], []⟩) with
  | none => none
  | some h =>
    match lines.foldl gridLineStep
        (some (0, false,
          { mkXbar h.rows h.cols with input_nanowires := h.ins, output_nanowires := h.outs })) with
    | none => none
    | some st => some st.2.2

/-- The literals the text format serializes faithfully: the two constants,
and literals whose atom is a nonempty word of the regex character class that,
when positive, does not begin with the digits 0 or 1 (a positive atom with
such a head would be re-parsed as a constant by the earlier regex
alternatives). -/
def okLit (l : Literal) : Prop :=
  l = TRUEL ∨ l = FALSEL ∨
    (l.atom.data ≠ [] ∧ l.atom.data.all isClassC = true ∧
      (l.positive = true → l.atom.data.head? ≠ some '0' ∧ l.atom.data.head? ≠ some '1'))

instance decOkLit (l : Literal) : Decidable (okLit l) := by
  unfold okLit
  exact inferInstance

/-- Residency invariant of a schedule prefix: every emitted EVAL instruction
is of a fixed pattern, or some cycle at or before it loads its pattern with
no load of a different pattern in between. -/
def resP (fixed : List String) (sched : List (List Instr)) : Prop :=
  ∀ i h, Instr.EVAL h ∈ sched.getD i [] →
    h ∈ fixed ∨
    ∃ j, j ≤ i ∧ Instr.LOAD h ∈ sched.getD j [] ∧
      ∀ k h', j < k → k ≤ i → Instr.LOAD h' ∈ sched.getD k [] → h' = h

/-- The currently resident variable pattern was loaded by a cycle of the
prefix after which no other load occurs. -/
def resQ (sched : List (List Instr)) (var : Option String) : Prop :=
  ∀ v, var = some v →
    ∃ j, j < sched.length ∧ Instr.LOAD v ∈ sched.getD j [] ∧
      ∀ k h', j < k → Instr.LOAD h' ∈ sched.getD k [] → h' = v

/-! Concrete objects used by witnesses and counterexamples. -/

/-- The 2-node diagram of the direct-mapper scenario: the terminal node 0
(variable x) feeds the root node 1 (output f) through one positive edge. -/
def ddC9 : DDiagram where
  nodes := [(0, ⟨"x", false, true, []⟩), (1, ⟨"y", true, false, ["f"]⟩)]
  edges := [(0, 1, ⟨"x", true⟩)]

/-- A 1 x 1 crossbar whose single cell holds the positive literal x. -/
def xbC6 : Xbar := (mkXbar 1 1).set_memristor 0 0 ⟨"x", true⟩

/-- An instance binding x to true. -/
def instC6 : String → Option Bool := fun a => if a = "x" then some true else none

/-- A 2 x 1 crossbar with two input rails (the selected function 1 at row 0
and another input g at row 1) and an output rail at row 1. -/
def xbC10 : Xbar :=
  ((((mkXbar 2 1).set_memristor 0 0 ⟨"a", true⟩).set_memristor 1 0
      ⟨"b", true⟩).set_input_nanowire "1" 0).set_input_nanowire "g" 1
    |>.set_output_nanowire "y" 1

/-- An instance binding a and b to true. -/
def instC10 : String → Option Bool :=
  fun x => if x = "a" then some true else if x = "b" then some true else none

/-- A running evaluations state with the signal s recorded true. -/
def evC7 : Evals := fun x => if x = "s" then some true else none

/-- A 1 x 1 crossbar holding the literal (x, true) with the input rail 1 at
(layer 0, row 0) and the output rail y at (layer 1, column 0). -/
def xbC1 : Xbar :=
  (((mkXbar 1 1).set_memristor 0 0 ⟨"x", true⟩).set_input_nanowire "1" 0)
    |>.set_output_nanowire "y" 0 1

/-- An instance binding x to true. -/
def instC1 : String → Option Bool := fun a => if a = "x" then some true else none

/-- A 1 x 1 crossbar whose single cell holds the literal (x_1, true): the
regex character class at line 390 has no underscore, so the serialized token
x_1 is re-parsed as the atom x. -/
def xbC8 : Xbar := (mkXbar 1 1).set_memristor 0 0 ⟨"x_1", true⟩

/-- A 2 x 1 crossbar with class-only atoms and well-formed rails. -/
def xbC8w : Xbar :=
  ((((mkXbar 2 1).set_memristor 0 0 ⟨"a", true⟩).set_memristor 1 0
      ⟨"b", false⟩).set_input_nanowire "u" 0).set_output_nanowire "y" 1

/-! ================= Theorems ================= -/

/-- C9: the Direct/Baseline Mapper on the 2-node diagram (one terminal node,
variable x, feeding one root node carrying output f through a single
positive edge) yields a 2 x 1 crossbar whose cell (0,0) holds the literal
(x, true), with the input rail registered at row 0 and the output rail at
row 1. -/
theorem chakraborty_two_node_scenario :
    (chakrabortyMap ddC9).rows = 2 ∧
    (chakrabortyMap ddC9).columns = 1 ∧
    ((chakrabortyMap ddC9).matrix 0 0 0).literal = ⟨"x", true⟩ ∧
    dictGet? (chakrabortyMap ddC9).input_nanowires "x" = some (0, 0) ∧
    dictGet? (chakrabortyMap ddC9).output_nanowires "f" = some (0, 1) := by
  refine ⟨rfl, rfl, rfl, rfl, rfl⟩

/-- C6 counterexample: MemristorCrossbar.instantiate mutates its receiver
(it writes the rewritten cells into self and returns self, line 668), so it
does not leave the original crossbar's cells unchanged: on a 1 x 1 crossbar
holding the literal (x, true) under the instance x = true, the receiver's
cell (0,0) ends up rewritten to the constant TRUE, no longer its original
literal. -/
theorem instantiate_not_pure_cex :
    ∃ cb', instantiateX xbC6 instC6 = some cb' ∧
      (cb'.matrix 0 0 0).literal ≠ (xbC6.matrix 0 0 0).literal := by
  refine ⟨_, rfl, ?_⟩
  decide

/-- C6 (amended): instantiate rewrites, in place on the receiver it returns,
every in-bounds cell whose literal has a non-constant atom and is not
stuck-at-fault to the constant TRUE or FALSE selected by the literal's
polarity and the instance's value for the atom, leaves every constant-atom
or stuck-at-fault cell untouched, and preserves dimensions and rails. -/
theorem instantiate_rewrites_in_place (cb : Xbar) (inst : String → Option Bool)
    (hcov : instOK cb inst = true) :
    ∃ cb', instantiateX cb inst = some cb' ∧
      cb'.rows = cb.rows ∧ cb'.columns = cb.columns ∧ cb'.layers = cb.layers ∧
      cb'.input_nanowires = cb.input_nanowires ∧
      cb'.output_nanowires = cb.output_nanowires ∧
      (∀ l r c b, l < cb.layers → r < cb.rows → c < cb.columns →
        (cb.matrix l r c).literal.atom ≠ "True" →
        (cb.matrix l r c).literal.atom ≠ "False" →
        (cb.matrix l r c).stuck_at_fault = false →
        inst (cb.matrix l r c).literal.atom = some b →
        (cb'.matrix l r c).literal
          = (if (cb.matrix l r c).literal.positive = b then TRUEL else FALSEL)) ∧
      (∀ l r c,
        ((cb.matrix l r c).literal.atom = "True" ∨ (cb.matrix l r c).literal.atom = "False" ∨
          (cb.matrix l r c).stuck_at_fault = true) →
        cb'.matrix l r c = cb.matrix l r c) := by
  refine ⟨{ cb with matrix := instMatrix cb inst }, by simp [instantiateX, instResult, hcov],
    rfl, rfl, rfl, rfl, rfl, ?_, ?_⟩
  · intro l r c b hl hr hc hT hF hs hb
    simp only [instMatrix, hl, hr, hc, and_self, if_true]
    unfold instCell
    rw [if_pos ⟨hT, hF, hs⟩]
    simp only [hb]
    split <;> rfl
  · intro l r c hor
    simp only [instMatrix]
    split
    · unfold instCell
      rw [if_neg]
      push_neg
      intro h1 h2
      rcases hor with h | h | h
      · exact absurd h h1
      · exact absurd h h2
      · simp [h]
    · rfl

/-- C6 witness: the amended characterization applied to the concrete 1 x 1
crossbar and instance. -/
theorem instantiate_rewrites_in_place_witness :
    instOK xbC6 instC6 = true ∧
    (∃ cb', instantiateX xbC6 instC6 = some cb' ∧
      cb'.rows = xbC6.rows ∧ cb'.columns = xbC6.columns ∧ cb'.layers = xbC6.layers ∧
      cb'.input_nanowires = xbC6.input_nanowires ∧
      cb'.output_nanowires = xbC6.output_nanowires ∧
      (∀ l r c b, l < xbC6.layers → r < xbC6.rows → c < xbC6.columns →
        (xbC6.matrix l r c).literal.atom ≠ "True" →
        (xbC6.matrix l r c).literal.atom ≠ "False" →
        (xbC6.matrix l r c).stuck_at_fault = false →
        instC6 (xbC6.matrix l r c).literal.atom = some b →
        (cb'.matrix l r c).literal
          = (if (xbC6.matrix l r c).literal.positive = b then TRUEL else FALSEL)) ∧
      (∀ l r c,
        ((xbC6.matrix l r c).literal.atom = "True" ∨ (xbC6.matrix l r c).literal.atom = "False" ∨
          (xbC6.matrix l r c).stuck_at_fault = true) →
        cb'.matrix l r c = xbC6.matrix l r c)) :=
  ⟨by decide, instantiate_rewrites_in_place xbC6 instC6 (by decide)⟩

theorem foldl_force_matrix (cols : List Nat) (cb : Xbar) (l0 r0 : Nat) :
    ∀ l r c,
      ((cols.foldl (fun acc c => acc.set_memristor r0 c FALSEL l0) cb).matrix l r c)
        = if l = l0 ∧ r = r0 ∧ c ∈ cols then ⟨r0, c, FALSEL, l0, false⟩
          else cb.matrix l r c := by
  induction cols generalizing cb with
  | nil => simp
  | cons c0 rest ih =>
    intro l r c
    simp only [List.foldl_cons]
    rw [ih]
    simp only [Xbar.set_memristor, List.mem_cons]
    by_cases hl : l = l0
    · by_cases hr : r = r0
      · by_cases hmem : c ∈ rest
        · simp [hl, hr, hmem]
        · by_cases hc0 : c = c0
          · simp [hl, hr, hmem, hc0]
          · simp [hl, hr, hmem, hc0]
      · simp [hr]
    · simp [hl]

theorem foldl_force_fields (cols : List Nat) (cb : Xbar) (l0 r0 : Nat) :
    (cols.foldl (fun acc c => acc.set_memristor r0 c FALSEL l0) cb).rows = cb.rows
    ∧ (cols.foldl (fun acc c => acc.set_memristor r0 c FALSEL l0) cb).columns = cb.columns
    ∧ (cols.foldl (fun acc c => acc.set_memristor r0 c FALSEL l0) cb).layers = cb.layers
    ∧ (cols.foldl (fun acc c => acc.set_memristor r0 c FALSEL l0) cb).input_nanowires
        = cb.input_nanowires
    ∧ (cols.foldl (fun acc c => acc.set_memristor r0 c FALSEL l0) cb).output_nanowires
        = cb.output_nanowires := by
  induction cols generalizing cb with
  | nil => exact ⟨rfl, rfl, rfl, rfl, rfl⟩
  | cons c0 rest ih =>
    simp only [List.foldl_cons]
    exact ih (cb.set_memristor r0 c0 FALSEL l0)

theorem forceRow_matrix (cb : Xbar) (l0 r0 l r c : Nat) :
    (forceRow cb l0 r0).matrix l r c
      = if l = l0 ∧ r = r0 ∧ c < cb.columns then ⟨r0, c, FALSEL, l0, false⟩
        else cb.matrix l r c := by
  unfold forceRow
  rw [foldl_force_matrix]
  simp [List.mem_range]

theorem forceRow_fields (cb : Xbar) (l0 r0 : Nat) :
    (forceRow cb l0 r0).rows = cb.rows ∧ (forceRow cb l0 r0).columns = cb.columns
    ∧ (forceRow cb l0 r0).layers = cb.layers
    ∧ (forceRow cb l0 r0).input_nanowires = cb.input_nanowires
    ∧ (forceRow cb l0 r0).output_nanowires = cb.output_nanowires := by
  unfold forceRow
  exact foldl_force_fields (List.range cb.columns) cb l0 r0

theorem forceInputRows_aux (entries : List (String × Nat × Nat)) (f : String) (cb : Xbar) :
    ∀ l r c,
      ((entries.foldl (fun acc e => if f ≠ e.1 then forceRow acc e.2.1 e.2.2 else acc) cb).matrix
          l r c)
        = if ∃ e ∈ entries, e.1 ≠ f ∧ e.2.1 = l ∧ e.2.2 = r ∧ c < cb.columns
          then ⟨r, c, FALSEL, l, false⟩ else cb.matrix l r c := by
  induction entries generalizing cb with
  | nil => simp
  | cons e rest ih =>
    intro l r c
    simp only [List.foldl_cons]
    by_cases hf : f ≠ e.1
    · rw [if_pos hf, ih]
      have hcols : (forceRow cb e.2.1 e.2.2).columns = cb.columns := (forceRow_fields cb _ _).2.1
      rw [hcols]
      have hef : e.1 ≠ f := fun h => hf h.symm
      by_cases hrest : ∃ e' ∈ rest, e'.1 ≠ f ∧ e'.2.1 = l ∧ e'.2.2 = r ∧ c < cb.columns
      · have hcons : ∃ e' ∈ e :: rest, e'.1 ≠ f ∧ e'.2.1 = l ∧ e'.2.2 = r ∧ c < cb.columns := by
          obtain ⟨e', he', hp⟩ := hrest
          exact ⟨e', List.mem_cons_of_mem e he', hp⟩
        rw [if_pos hrest, if_pos hcons]
      · rw [if_neg hrest, forceRow_matrix]
        by_cases hme : l = e.2.1 ∧ r = e.2.2 ∧ c < cb.columns
        · have hcons : ∃ e' ∈ e :: rest, e'.1 ≠ f ∧ e'.2.1 = l ∧ e'.2.2 = r ∧ c < cb.columns :=
            ⟨e, List.mem_cons_self e rest, hef, hme.1.symm, hme.2.1.symm, hme.2.2⟩
          rw [if_pos hme, if_pos hcons]
          simp [hme.1, hme.2.1]
        · have hcons : ¬ ∃ e' ∈ e :: rest, e'.1 ≠ f ∧ e'.2.1 = l ∧ e'.2.2 = r ∧ c < cb.columns := by
            rintro ⟨e', he', hp⟩
            rcases List.mem_cons.mp he' with rfl | he'
            · exact hme ⟨hp.2.1.symm, hp.2.2.1.symm, hp.2.2.2⟩
            · exact hrest ⟨e', he', hp⟩
          rw [if_neg hme, if_neg hcons]
    · rw [if_neg hf, ih]
      have hfe : e.1 = f := by
        by_contra hne
        exact hf fun h => hne h.symm
      by_cases hrest : ∃ e' ∈ rest, e'.1 ≠ f ∧ e'.2.1 = l ∧ e'.2.2 = r ∧ c < cb.columns
      · have hcons : ∃ e' ∈ e :: rest, e'.1 ≠ f ∧ e'.2.1 = l ∧ e'.2.2 = r ∧ c < cb.columns := by
          obtain ⟨e', he', hp⟩ := hrest
          exact ⟨e', List.mem_cons_of_mem e he', hp⟩
        rw [if_pos hrest, if_pos hcons]
      · have hcons : ¬ ∃ e' ∈ e :: rest, e'.1 ≠ f ∧ e'.2.1 = l ∧ e'.2.2 = r ∧ c < cb.columns := by
          rintro ⟨e', he', hp⟩
          rcases List.mem_cons.mp he' with rfl | he'
          · exact hp.1 hfe
          · exact hrest ⟨e', he', hp⟩
        rw [if_neg hrest, if_neg hcons]

/-- C10: MemristorCrossbar.eval mutates its receiver.  When eval returns (on
a crossbar whose input rails are in bounds), the receiver holds
forceInputRows cb f — the forcing applied before the internal copy and never
restored: every cell on the row of an input rail other than the selected
input function holds the constant FALSE, and every other cell of the
receiver is unchanged. -/
theorem eval_mutates_receiver (cb : Xbar) (inst : String → Option Bool) (f : String)
    (hvalid : ∀ p ∈ cb.input_nanowires, p.2.1 < cb.layers ∧ p.2.2 < cb.rows)
    (hret : (evalXbar cb inst f).isSome = true) :
    (∀ l r c, (∃ p ∈ cb.input_nanowires, p.1 ≠ f ∧ p.2.1 = l ∧ p.2.2 = r) → c < cb.columns →
        ((forceInputRows cb f).matrix l r c).literal = FALSEL)
    ∧ (∀ l r c,
        ((¬ ∃ p ∈ cb.input_nanowires, p.1 ≠ f ∧ p.2.1 = l ∧ p.2.2 = r) ∨ cb.columns ≤ c) →
        (forceInputRows cb f).matrix l r c = cb.matrix l r c) := by
  clear hvalid hret
  constructor
  · intro l r c hex hc
    unfold forceInputRows
    rw [forceInputRows_aux]
    rw [if_pos]
    obtain ⟨p, hp, h1, h2, h3⟩ := hex
    exact ⟨p, hp, h1, h2, h3, hc⟩
  · intro l r c hcond
    unfold forceInputRows
    rw [forceInputRows_aux]
    rw [if_neg]
    rintro ⟨p, hp, h1, h2, h3, h4⟩
    rcases hcond with hno | hge
    · exact hno ⟨p, hp, h1, h2, h3⟩
    · omega

/-- C10 witness: on the concrete 2 x 1 crossbar with input rails 1 (row 0,
selected) and g (row 1), eval returns and the characterization applies. -/
theorem eval_mutates_receiver_witness :
    (∀ p ∈ xbC10.input_nanowires, p.2.1 < xbC10.layers ∧ p.2.2 < xbC10.rows) ∧
    (evalXbar xbC10 instC10 "1").isSome = true ∧
    ((∀ l r c, (∃ p ∈ xbC10.input_nanowires, p.1 ≠ "1" ∧ p.2.1 = l ∧ p.2.2 = r) →
        c < xbC10.columns →
        ((forceInputRows xbC10 "1").matrix l r c).literal = FALSEL)
    ∧ (∀ l r c,
        ((¬ ∃ p ∈ xbC10.input_nanowires, p.1 ≠ "1" ∧ p.2.1 = l ∧ p.2.2 = r) ∨
          xbC10.columns ≤ c) →
        (forceInputRows xbC10 "1").matrix l r c = xbC10.matrix l r c)) :=
  ⟨by decide, by decide, eval_mutates_receiver xbC10 instC10 "1" (by decide) (by decide)⟩

theorem mergeEval_preserves_true (res : List (String × Bool)) (e : Evals) (k : String)
    (h : e k = some true) : mergeEval e res k = some true := by
  induction res generalizing e with
  | nil => exact h
  | cons kv rest ih =>
    unfold mergeEval at ih ⊢
    rw [List.foldl_cons]
    apply ih
    by_cases hk : k = kv.1
    · subst hk
      simp [h]
    · cases hud : e kv.1 with
      | none => simp [hud, evUpdate, hk, h]
      | some cur => cases cur <;> simp [hud, evUpdate, hk, h]

theorem topoStepInputs_preserves_true (names : List String) (cb : Xbar) (ev : Evals)
    (k : String) (st' : Xbar × Evals) (h : ev k = some true)
    (hs : topoStepInputs cb ev names = some st') : st'.2 k = some true := by
  induction names generalizing cb ev with
  | nil =>
    unfold topoStepInputs at hs
    simp only [List.foldlM_nil] at hs
    cases hs
    exact h
  | cons nm rest ih =>
    unfold topoStepInputs at hs ih
    rw [List.foldlM_cons] at hs
    by_cases ht : ev nm = some true
    · rw [if_pos ht] at hs
      cases heval : evalXbar cb ev nm with
      | none => rw [heval] at hs; exact absurd hs (by simp)
      | some res =>
        rw [heval] at hs
        simp only [Option.bind_eq_bind, Option.some_bind] at hs
        exact ih _ _ (mergeEval_preserves_true res ev k h) hs
    · rw [if_neg ht] at hs
      simp only [Option.bind_eq_bind, Option.some_bind] at hs
      exact ih _ _ h hs

/-- C7: the running evaluations map of Topology.eval is monotone in truth —
for every crossbar sequence (the topological order), any starting state and
any signal, once the signal is recorded true it is still true in the state
produced by the remaining evaluation, no later merge overwrites it to
false. -/
theorem topology_eval_true_monotone (cbs : List Xbar) (ev : Evals) (k : String) (r : Evals)
    (h : ev k = some true) (hr : topoEvalFrom cbs ev = some r) : r k = some true := by
  induction cbs generalizing ev with
  | nil =>
    unfold topoEvalFrom at hr
    simp only [List.foldlM_nil] at hr
    cases hr
    exact h
  | cons cb rest ih =>
    unfold topoEvalFrom at hr ih
    rw [List.foldlM_cons] at hr
    cases hstep : topoStepInputs cb ev (cb.input_nanowires.map fun p => p.1) with
    | none => rw [hstep] at hr; exact absurd hr (by simp)
    | some st' =>
      rw [hstep] at hr
      simp only [Option.map_some, Option.bind_eq_bind, Option.some_bind] at hr
      exact ih st'.2 (topoStepInputs_preserves_true _ cb ev k st' h hstep) hr

/-- C7 witness: a one-crossbar topology and a state with signal s true. -/
theorem topology_eval_true_monotone_witness :
    evC7 "s" = some true ∧ topoEvalFrom [mkXbar 1 1] evC7 = some evC7 ∧
      evC7 "s" = some true :=
  ⟨rfl, rfl, topology_eval_true_monotone [mkXbar 1 1] evC7 "s" evC7 rfl rfl⟩

theorem mem_horizontalOf (nodes : List Nat) (xV xH : Nat → Bool) (n : Nat)
    (hn : n ∈ nodes) (h : xH n = true) : n ∈ horizontalOf nodes xV xH := by
  unfold horizontalOf
  refine List.mem_filter.mpr ⟨hn, ?_⟩
  unfold labelingOf
  by_cases hx : xV n <;> simp [hx, h]

theorem mem_verticalOf (nodes : List Nat) (xV xH : Nat → Bool) (n : Nat)
    (hn : n ∈ nodes) (h : xV n = true) : n ∈ verticalOf nodes xV xH := by
  unfold verticalOf
  refine List.mem_filter.mpr ⟨hn, ?_⟩
  unfold labelingOf
  by_cases hx : xH n <;> simp [hx, h]

/-- C5: a node labeling satisfying the emitted ILP edge constraints assigns,
for every edge, one endpoint Horizontal and the other Vertical, and every
cell the 2D mapper writes for that edge (the edge literal and any
always-conducting diagonal cell) has its row index below the length of the
horizontal list and its column index below the length of the vertical list —
inside the bounds of the allocated len(horizontal) x len(vertical)
crossbar. -/
theorem vh_mapping_in_bounds (nodes : List Nat) (xV xH : Nat → Bool) (a b : Nat)
    (lit : Literal) (ha : a ∈ nodes) (hb : b ∈ nodes)
    (hc : vhEdgeConstraint xV xH a b) :
    ((xH a = true ∧ xV b = true) ∨ (xV a = true ∧ xH b = true)) ∧
    ∀ p ∈ edgeCells (horizontalOf nodes xV xH) (verticalOf nodes xV xH) a b lit,
      p.1 < (horizontalOf nodes xV xH).length ∧
      p.2.1 < (verticalOf nodes xV xH).length := by
  obtain ⟨s, hs0, hs1, h1, h2⟩ := hc
  have hax : (xH a = true ∧ xV b = true) ∨ (xV a = true ∧ xH b = true) := by
    have hs : s = 0 ∨ s = 1 := by omega
    unfold bI at h1 h2
    rcases hs with rfl | rfl
    · refine Or.inr ?_
      cases hxa : xV a <;> cases hxb : xH b <;> rw [hxa, hxb] at h1 <;>
        simp only [if_true, if_false, Bool.false_eq_true] at h1 <;>
        first | exact ⟨rfl, rfl⟩ | omega
    · refine Or.inl ?_
      cases hya : xH a <;> cases hyb : xV b <;> rw [hya, hyb] at h2 <;>
        simp only [if_true, if_false, Bool.false_eq_true] at h2 <;>
        first | exact ⟨rfl, rfl⟩ | omega
  refine ⟨hax, ?_⟩
  have hbound : ∀ n : Nat, n ∈ horizontalOf nodes xV xH →
      (horizontalOf nodes xV xH).indexOf n < (horizontalOf nodes xV xH).length :=
    fun n hn => List.indexOf_lt_length.mpr hn
  have hboundV : ∀ n : Nat, n ∈ verticalOf nodes xV xH →
      (verticalOf nodes xV xH).indexOf n < (verticalOf nodes xV xH).length :=
    fun n hn => List.indexOf_lt_length.mpr hn
  intro p hp
  unfold edgeCells at hp
  split_ifs at hp with hBothA hbInH hBothB haInH hAHBV
  · -- a in both lists, b horizontal
    simp only [List.mem_append, List.mem_singleton, List.mem_cons, List.not_mem_nil,
      or_false] at hp
    rcases hp with rfl | rfl
    · exact ⟨hbound b hbInH, hboundV a hBothA.2⟩
    · exact ⟨hbound a hBothA.1, hboundV a hBothA.2⟩
  · -- a in both lists, b not horizontal: the constraint forces b vertical
    have hbV : b ∈ verticalOf nodes xV xH := by
      rcases hax with ⟨hHa, hVb⟩ | ⟨hVa, hHb⟩
      · exact mem_verticalOf nodes xV xH b hb hVb
      · exact absurd (mem_horizontalOf nodes xV xH b hb hHb) hbInH
    simp only [List.mem_append, List.mem_singleton, List.mem_cons, List.not_mem_nil,
      or_false] at hp
    rcases hp with rfl | rfl
    · exact ⟨hbound a hBothA.1, hboundV b hbV⟩
    · exact ⟨hbound a hBothA.1, hboundV a hBothA.2⟩
  · -- b in both lists, a horizontal
    simp only [List.mem_append, List.mem_singleton, List.mem_cons, List.not_mem_nil,
      or_false] at hp
    rcases hp with rfl | rfl
    · exact ⟨hbound a haInH, hboundV b hBothB.2⟩
    · exact ⟨hbound b hBothB.1, hboundV b hBothB.2⟩
  · -- b in both lists, a not horizontal: the constraint forces a vertical
    have haV : a ∈ verticalOf nodes xV xH := by
      rcases hax with ⟨hHa, hVb⟩ | ⟨hVa, hHb⟩
      · exact absurd (mem_horizontalOf nodes xV xH a ha hHa) haInH
      · exact mem_verticalOf nodes xV xH a ha hVa
    simp only [List.mem_append, List.mem_singleton, List.mem_cons, List.not_mem_nil,
      or_false] at hp
    rcases hp with rfl | rfl
    · exact ⟨hbound b hBothB.1, hboundV a haV⟩
    · exact ⟨hbound b hBothB.1, hboundV b hBothB.2⟩
  · -- a horizontal and b vertical
    simp only [List.mem_singleton] at hp
    subst hp
    exact ⟨hbound a hAHBV.1, hboundV b hAHBV.2⟩
  · -- last branch: the constraint forces b horizontal and a vertical
    have hres : b ∈ horizontalOf nodes xV xH ∧ a ∈ verticalOf nodes xV xH := by
      rcases hax with ⟨hHa, hVb⟩ | ⟨hVa, hHb⟩
      · have haH : a ∈ horizontalOf nodes xV xH := mem_horizontalOf nodes xV xH a ha hHa
        have hbV : b ∈ verticalOf nodes xV xH := mem_verticalOf nodes xV xH b hb hVb
        exact absurd ⟨haH, hbV⟩ hAHBV
      · exact ⟨mem_horizontalOf nodes xV xH b hb hHb, mem_verticalOf nodes xV xH a ha hVa⟩
    simp only [List.mem_singleton] at hp
    subst hp
    exact ⟨hbound b hres.1, hboundV a hres.2⟩

/-- C5 witness: the edge (0, 1) with node 0 labeled Vertical and node 1
labeled Horizontal satisfies the constraint pair with orientation s = 0. -/
theorem vh_mapping_in_bounds_witness :
    (0 ∈ [0, 1] ∧ 1 ∈ [0, 1] ∧
      vhEdgeConstraint (fun n => decide (n = 0)) (fun n => decide (n = 1)) 0 1) ∧
    (((fun n => decide (n = 1)) 0 = true ∧ (fun n => decide (n = 0)) 1 = true) ∨
      ((fun n => decide (n = 0)) 0 = true ∧ (fun n => decide (n = 1)) 1 = true)) ∧
    ∀ p ∈ edgeCells (horizontalOf [0, 1] (fun n => decide (n = 0)) fun n => decide (n = 1))
        (verticalOf [0, 1] (fun n => decide (n = 0)) fun n => decide (n = 1)) 0 1 ⟨"x", true⟩,
      p.1 < (horizontalOf [0, 1] (fun n => decide (n = 0)) fun n => decide (n = 1)).length ∧
      p.2.1 < (verticalOf [0, 1] (fun n => decide (n = 0)) fun n => decide (n = 1)).length := by
  have hcon : vhEdgeConstraint (fun n => decide (n = 0)) (fun n => decide (n = 1)) 0 1 :=
    ⟨0, by norm_num, by norm_num, by norm_num [bI], by norm_num [bI]⟩
  have := vh_mapping_in_bounds [0, 1] (fun n => decide (n = 0)) (fun n => decide (n = 1))
    0 1 ⟨"x", true⟩ (by decide) (by decide) hcon
  exact ⟨⟨by decide, by decide, hcon⟩, this⟩

theorem groupUpd_keyed {α : Type} (P : α → String) (acc : List (String × List α))
    (h : String) (x : α) (hx : P x = h)
    (hacc : ∀ p ∈ acc, ∀ y ∈ p.2, P y = p.1) :
    ∀ p ∈ groupUpd acc h x, ∀ y ∈ p.2, P y = p.1 := by
  induction acc with
  | nil =>
    intro p hp y hy
    simp only [groupUpd, List.mem_singleton] at hp
    subst hp
    simp only [List.mem_singleton] at hy
    subst hy
    exact hx
  | cons q rest ih =>
    obtain ⟨k, xs⟩ := q
    intro p hp y hy
    unfold groupUpd at hp
    by_cases hk : k = h
    · rw [if_pos hk] at hp
      rcases List.mem_cons.mp hp with rfl | hp
      · rcases List.mem_append.mp hy with hy' | hy'
        · exact hacc (k, xs) (List.mem_cons_self _ _) y hy'
        · simp only [List.mem_singleton] at hy'
          subst hy'
          exact hx.trans hk.symm
      · exact hacc p (List.mem_cons_of_mem _ hp) y hy
    · rw [if_neg hk] at hp
      rcases List.mem_cons.mp hp with rfl | hp
      · exact hacc (k, xs) (List.mem_cons_self _ _) y hy
      · exact ih (fun q hq => hacc q (List.mem_cons_of_mem _ hq)) p hp y hy

theorem groupUpd_keys {α : Type} (acc : List (String × List α)) (h : String) (x : α) :
    (groupUpd acc h x).map (fun p => p.1)
      = if h ∈ acc.map (fun p => p.1) then acc.map (fun p => p.1)
        else acc.map (fun p => p.1) ++ [h] := by
  induction acc with
  | nil => simp [groupUpd]
  | cons q rest ih =>
    obtain ⟨k, xs⟩ := q
    by_cases hk : k = h
    · simp [groupUpd, hk]
    · have hk' : h ≠ k := fun hh => hk hh.symm
      simp only [groupUpd, hk, if_false, List.map_cons, List.mem_cons, hk', false_or, ih]
      split <;> rfl

theorem groupByHash_keyed {α : Type} (f : α → String) (g : List α) :
    ∀ p ∈ groupByHash f g, ∀ y ∈ p.2, f y = p.1 := by
  have haux : ∀ acc, (∀ p ∈ acc, ∀ y ∈ p.2, f y = p.1) →
      ∀ p ∈ g.foldl (fun acc x => groupUpd acc (f x) x) acc, ∀ y ∈ p.2, f y = p.1 := by
    induction g with
    | nil => intro acc hacc; simpa using hacc
    | cons a as ih =>
      intro acc hacc
      simp only [List.foldl_cons]
      exact ih (groupUpd acc (f a) a) (groupUpd_keyed f acc (f a) a rfl hacc)
  exact haux [] (by simp)

theorem groupByHash_keys_nodup {α : Type} (f : α → String) (g : List α) :
    ((groupByHash f g).map fun p => p.1).Nodup := by
  have haux : ∀ acc, ((acc.map fun p => p.1).Nodup) →
      ((g.foldl (fun acc x => groupUpd acc (f x) x) acc).map fun p => p.1).Nodup := by
    induction g with
    | nil => intro acc hacc; simpa using hacc
    | cons a as ih =>
      intro acc hacc
      simp only [List.foldl_cons]
      apply ih
      rw [groupUpd_keys]
      split
      · exact hacc
      · next hmem =>
          rw [List.nodup_append]
          refine ⟨hacc, List.nodup_singleton _, ?_⟩
          intro a' ha' hb'
          rw [List.mem_singleton] at hb'
          subst hb'
          exact hmem ha'
  exact haux [] (by simp)

theorem filterMap_head_map_keys {α : Type} (P : α → String)
    (groups : List (String × List α)) (hne : ∀ p ∈ groups, p.2 ≠ [])
    (hkey : ∀ p ∈ groups, ∀ y ∈ p.2, P y = p.1) :
    ((groups.filterMap fun p => p.2.head?).map P) = groups.map fun p => p.1 := by
  induction groups with
  | nil => simp
  | cons p rest ih =>
    obtain ⟨k, xs⟩ := p
    have hx : xs ≠ [] := hne (k, xs) (by simp)
    obtain ⟨y, ys, rfl⟩ := List.exists_cons_of_ne_nil hx
    have hy : P y = k := hkey (k, y :: ys) (by simp) y (by simp)
    simp only [List.filterMap_cons, List.head?_cons, List.map_cons, hy]
    rw [ih (fun q hq => hne q (by simp [hq])) (fun q hq => hkey q (by simp [hq]))]

theorem keptOf_map_nodup {α : Type} (f : α → String) (g : List α) :
    ((keptOf f g).map f).Nodup := by
  unfold keptOf
  rw [filterMap_head_map_keys f (groupByHash f g) (groupByHash_ne_nil f g)
    (groupByHash_keyed f g)]
  exact groupByHash_keys_nodup f g

theorem perm_swap_singleton {α : Type} (xs F : List α) (x : α) :
    ((xs ++ [x]) ++ F).Perm ((xs ++ F) ++ [x]) := by
  have h := List.Perm.append_left xs (@List.perm_append_comm _ [x] F)
  simpa [List.append_assoc] using h

theorem groupUpd_flat_perm {α : Type} (acc : List (String × List α)) (h : String) (x : α) :
    ((groupUpd acc h x).flatMap fun p => p.2).Perm ((acc.flatMap fun p => p.2) ++ [x]) := by
  induction acc with
  | nil => simp [groupUpd]
  | cons q rest ih =>
    obtain ⟨k, xs⟩ := q
    unfold groupUpd
    by_cases hk : k = h
    · rw [if_pos hk]
      simp only [List.flatMap_cons]
      exact perm_swap_singleton xs (rest.flatMap fun p => p.2) x
    · rw [if_neg hk]
      simp only [List.flatMap_cons]
      have h1 := List.Perm.append_left xs ih
      simpa [List.append_assoc] using h1

theorem groupByHash_flat_perm {α : Type} (f : α → String) (g : List α) :
    ((groupByHash f g).flatMap fun p => p.2).Perm g := by
  have haux : ∀ acc,
      ((g.foldl (fun acc x => groupUpd acc (f x) x) acc).flatMap fun p => p.2).Perm
        ((acc.flatMap fun p => p.2) ++ g) := by
    induction g with
    | nil => intro acc; simp
    | cons a as ih =>
      intro acc
      simp only [List.foldl_cons]
      have h1 := ih (groupUpd acc (f a) a)
      have h2 := (groupUpd_flat_perm acc (f a) a).append_right as
      have h3 : ((acc.flatMap fun p => p.2) ++ [a]) ++ as
          = (acc.flatMap fun p => p.2) ++ (a :: as) := by simp
      rw [h3] at h2
      exact h1.trans h2
  simpa [groupByHash] using haux []

theorem kept_append_pushed_perm {α : Type} (f : α → String) (g : List α) :
    (keptOf f g ++ pushedOf f g).Perm g := by
  have hgen : ∀ groups : List (String × List α), (∀ p ∈ groups, p.2 ≠ []) →
      ((groups.filterMap fun p => p.2.head?) ++ groups.flatMap fun p => p.2.tail).Perm
        (groups.flatMap fun p => p.2) := by
    intro groups
    induction groups with
    | nil => intro _; simp
    | cons p rest ih =>
      intro hne
      obtain ⟨k, xs⟩ := p
      have hx : xs ≠ [] := hne (k, xs) (by simp)
      obtain ⟨y, ys, rfl⟩ := List.exists_cons_of_ne_nil hx
      have ihp := ih fun q hq => hne q (by simp [hq])
      simp only [List.filterMap_cons, List.head?_cons, List.flatMap_cons, List.tail_cons,
        List.cons_append]
      refine List.Perm.cons y ?_
      have h1 : ((rest.filterMap fun p => p.2.head?) ++ (ys ++ rest.flatMap fun p => p.2.tail))
          = (((rest.filterMap fun p => p.2.head?) ++ ys) ++ rest.flatMap fun p => p.2.tail) := by
        rw [List.append_assoc]
      have h2 := (@List.perm_append_comm _ (rest.filterMap fun p => p.2.head?) ys).append_right
        (rest.flatMap fun p => p.2.tail)
      have h3 : ((ys ++ rest.filterMap fun p => p.2.head?) ++ rest.flatMap fun p => p.2.tail)
          = (ys ++ ((rest.filterMap fun p => p.2.head?) ++ rest.flatMap fun p => p.2.tail)) := by
        rw [List.append_assoc]
      rw [h3] at h2
      have h4 := List.Perm.append_left ys ihp
      rw [h1]
      exact h2.trans h4
  exact (hgen (groupByHash f g) (groupByHash_ne_nil f g)).trans (groupByHash_flat_perm f g)

/-- C4: the leveling worklist loop terminates (levelGens is total by the
decreasing measure of its definition) and produces generations none of which
contains two nodes sharing a pattern hash; the nodes themselves are
conserved — pushed duplicates are moved into the freshly inserted
generations, never dropped. -/
theorem iso_leveling_no_duplicate_hashes {α : Type} (f : α → String)
    (gens : List (List α)) :
    (∀ g' ∈ levelGens f gens, ((g'.map f).Nodup)) ∧
    ((levelGens f gens).flatten.Perm gens.flatten) := by
  induction gens using levelGens.induct f with
  | case1 => simp [levelGens]
  | case2 g rest h ih =>
    have heq : levelGens f (g :: rest) = keptOf f g :: levelGens f rest := by
      rw [levelGens, dif_pos h]
    have hpe : pushedOf f g = [] := List.isEmpty_iff.mp h
    constructor
    · intro g' hg'
      rw [heq] at hg'
      rcases List.mem_cons.mp hg' with rfl | hg'
      · exact keptOf_map_nodup f g
      · exact ih.1 g' hg'
    · rw [heq]
      simp only [List.flatten_cons]
      have hkg : (keptOf f g).Perm g := by
        have := kept_append_pushed_perm f g
        rwa [hpe, List.append_nil] at this
      exact hkg.append ih.2
  | case3 g rest h ih =>
    have heq : levelGens f (g :: rest)
        = keptOf f g :: levelGens f (pushedOf f g :: rest) := by
      rw [levelGens, dif_neg h]
    constructor
    · intro g' hg'
      rw [heq] at hg'
      rcases List.mem_cons.mp hg' with rfl | hg'
      · exact keptOf_map_nodup f g
      · exact ih.1 g' hg'
    · rw [heq]
      simp only [List.flatten_cons]
      have h1 := List.Perm.append_left (keptOf f g) ih.2
      have h2 : keptOf f g ++ (pushedOf f g :: rest).flatten
          = (keptOf f g ++ pushedOf f g) ++ rest.flatten := by
        simp [List.flatten_cons, List.append_assoc]
      rw [h2] at h1
      exact h1.trans ((kept_append_pushed_perm f g).append_right _)

/-- C4 witness: a single generation holding two nodes with the same hash;
the leveled output's first generation is a member with duplicate-free
hashes. -/
theorem iso_leveling_no_duplicate_hashes_witness :
    (["a"] ∈ levelGens (fun s : String => s) [["a", "a"]]) ∧
    ((["a"].map fun s : String => s).Nodup) := by
  have hmem : ["a"] ∈ levelGens (fun s : String => s) [["a", "a"]] := by
    rw [levelGens]
    rw [dif_neg (by decide)]
    exact List.mem_cons_self _ _
  exact ⟨hmem, (iso_leveling_no_duplicate_hashes (fun s : String => s) [["a", "a"]]).1
    ["a"] hmem⟩

theorem load_not_mem_evals (h' : String) (evald : List String) :
    Instr.LOAD h' ∉ evald.map Instr.EVAL := by
  intro hmem
  obtain ⟨x, _, heq⟩ := List.mem_map.mp hmem
  cases heq

theorem resPQ_append_eval_cycle (fixed : List String) (pre : List (List Instr))
    (var : Option String) (evald : List String)
    (hP : resP fixed pre) (hQ : resQ pre var)
    (hav : ∀ x ∈ evald, availB fixed var x = true) :
    resP fixed (pre ++ [evald.map Instr.EVAL])
    ∧ resQ (pre ++ [evald.map Instr.EVAL]) var := by
  constructor
  · intro i h hev
    by_cases hi : i < pre.length
    · rw [List.getD_append _ _ _ _ hi] at hev
      rcases hP i h hev with hfix | ⟨j, hji, hload, hbet⟩
      · exact Or.inl hfix
      · refine Or.inr ⟨j, hji, ?_, ?_⟩
        · rw [List.getD_append _ _ _ _ (by omega)]
          exact hload
        · intro k h' hjk hki hl
          rw [List.getD_append _ _ _ _ (by omega)] at hl
          exact hbet k h' hjk hki hl
    · by_cases hi2 : i = pre.length
      · subst hi2
        rw [List.getD_append_right _ _ _ _ (le_refl _), Nat.sub_self] at hev
        simp only [List.getD_cons_zero] at hev
        have hhe : h ∈ evald := by
          obtain ⟨x, hx, heq⟩ := List.mem_map.mp hev
          cases heq
          exact hx
        have hava := hav h hhe
        unfold availB at hava
        have hor : fixed.contains h = true ∨ (decide (var = some h)) = true := by
          simpa using hava
        rcases hor with hfix | hvar
        · left
          simpa using hfix
        · have hv : var = some h := of_decide_eq_true hvar
          obtain ⟨j, hjlen, hload, hnl⟩ := hQ h hv
          refine Or.inr ⟨j, by omega, ?_, ?_⟩
          · rw [List.getD_append _ _ _ _ hjlen]
            exact hload
          · intro k h' hjk hki hl
            by_cases hk : k < pre.length
            · rw [List.getD_append _ _ _ _ hk] at hl
              exact hnl k h' hjk hl
            · have hk2 : k = pre.length := by omega
              subst hk2
              rw [List.getD_append_right _ _ _ _ (le_refl _), Nat.sub_self] at hl
              simp only [List.getD_cons_zero] at hl
              exact absurd hl (load_not_mem_evals h' evald)
      · have h1 : pre.length ≤ i := by omega
        rw [List.getD_append_right _ _ _ _ h1,
          List.getD_eq_default _ _ (by simp only [List.length_singleton]; omega)] at hev
        exact absurd hev (List.not_mem_nil _)
  · intro v hv
    obtain ⟨j, hjlen, hload, hnl⟩ := hQ v hv
    refine ⟨j, by simp only [List.length_append, List.length_singleton]; omega, ?_, ?_⟩
    · rw [List.getD_append _ _ _ _ hjlen]
      exact hload
    · intro k h' hjk hl
      by_cases hk : k < pre.length
      · rw [List.getD_append _ _ _ _ hk] at hl
        exact hnl k h' hjk hl
      · by_cases hk2 : k = pre.length
        · subst hk2
          rw [List.getD_append_right _ _ _ _ (le_refl _), Nat.sub_self] at hl
          simp only [List.getD_cons_zero] at hl
          exact absurd hl (load_not_mem_evals h' evald)
        · have h1 : pre.length ≤ k := by omega
          rw [List.getD_append_right _ _ _ _ h1,
            List.getD_eq_default _ _ (by simp only [List.length_singleton]; omega)] at hl
          exact absurd hl (List.not_mem_nil _)

theorem resPQ_append_pair (fixed : List String) (pre : List (List Instr)) (m : String)
    (hP : resP fixed pre) :
    resP fixed (pre ++ [[Instr.LOAD m], [Instr.EVAL m]])
    ∧ resQ (pre ++ [[Instr.LOAD m], [Instr.EVAL m]]) (some m) := by
  constructor
  · intro i h hev
    by_cases hi : i < pre.length
    · rw [List.getD_append _ _ _ _ hi] at hev
      rcases hP i h hev with hfix | ⟨j, hji, hload, hbet⟩
      · exact Or.inl hfix
      · refine Or.inr ⟨j, hji, ?_, ?_⟩
        · rw [List.getD_append _ _ _ _ (by omega)]
          exact hload
        · intro k h' hjk hki hl
          rw [List.getD_append _ _ _ _ (by omega)] at hl
          exact hbet k h' hjk hki hl
    · by_cases hi2 : i = pre.length
      · subst hi2
        rw [List.getD_append_right _ _ _ _ (le_refl _), Nat.sub_self] at hev
        simp only [List.getD_cons_zero] at hev
        rcases List.mem_singleton.mp hev with heq
        cases heq
      · by_cases hi3 : i = pre.length + 1
        · subst hi3
          rw [List.getD_append_right _ _ _ _ (by omega),
            show pre.length + 1 - pre.length = 1 from by omega] at hev
          simp only [List.getD_cons_succ, List.getD_cons_zero] at hev
          have hm : h = m := by
            rcases List.mem_singleton.mp hev with heq
            cases heq
            rfl
          subst hm
          refine Or.inr ⟨pre.length, by omega, ?_, ?_⟩
          · rw [List.getD_append_right _ _ _ _ (le_refl _), Nat.sub_self]
            simp
          · intro k h' hjk hki hl
            have hk : k = pre.length + 1 := by omega
            subst hk
            rw [List.getD_append_right _ _ _ _ (by omega),
              show pre.length + 1 - pre.length = 1 from by omega] at hl
            simp only [List.getD_cons_succ, List.getD_cons_zero] at hl
            rcases List.mem_singleton.mp hl with heq
            cases heq
        · have h1 : pre.length ≤ i := by omega
          rw [List.getD_append_right _ _ _ _ h1,
            List.getD_eq_default _ _ (by simp only [List.length_cons, List.length_nil]; omega)]
            at hev
          exact absurd hev (List.not_mem_nil _)
  · intro v hv
    have hvm : v = m := by
      cases hv
      rfl
    subst hvm
    refine ⟨pre.length, by simp, ?_, ?_⟩
    · rw [List.getD_append_right _ _ _ _ (le_refl _), Nat.sub_self]
      simp
    · intro k h' hjk hl
      by_cases hk : k = pre.length + 1
      · subst hk
        rw [List.getD_append_right _ _ _ _ (by omega),
          show pre.length + 1 - pre.length = 1 from by omega] at hl
        simp only [List.getD_cons_succ, List.getD_cons_zero] at hl
        rcases List.mem_singleton.mp hl with heq
        cases heq
      · have h1 : pre.length ≤ k := by omega
        rw [List.getD_append_right _ _ _ _ h1,
          List.getD_eq_default _ _ (by simp only [List.length_cons, List.length_nil]; omega)]
          at hl
        exact absurd hl (List.not_mem_nil _)

theorem lastD_eq (ms : List String) : ∀ var : Option String,
    (ms.foldl (fun _ m => some m) var)
      = (match ms.getLast? with | some m => some m | none => var) := by
  induction ms with
  | nil => intro var; rfl
  | cons m ms' ih =>
    intro var
    rw [List.foldl_cons, ih (some m)]
    cases ms' with
    | nil => rfl
    | cons y ys =>
      rw [List.getLast?_cons_cons]
      cases hys : (y :: ys).getLast? with
      | none =>
        exfalso
        have := List.getLast?_isSome.mpr (List.cons_ne_nil y ys)
        rw [hys] at this
        cases this
      | some x => rfl

theorem resPQ_append_pairs (fixed : List String) (ms : List String) :
    ∀ pre var, resP fixed pre → resQ pre var →
    resP fixed (pre ++ ms.flatMap fun m => [[Instr.LOAD m], [Instr.EVAL m]])
    ∧ resQ (pre ++ ms.flatMap fun m => [[Instr.LOAD m], [Instr.EVAL m]])
        (ms.foldl (fun _ m => some m) var) := by
  induction ms with
  | nil =>
    intro pre var hP hQ
    simpa using ⟨hP, hQ⟩
  | cons m ms' ih =>
    intro pre var hP hQ
    have hpair := resPQ_append_pair fixed pre m hP
    have hrec := ih (pre ++ [[Instr.LOAD m], [Instr.EVAL m]]) (some m) hpair.1 hpair.2
    have hassoc : pre ++ ((m :: ms').flatMap fun m => [[Instr.LOAD m], [Instr.EVAL m]])
        = (pre ++ [[Instr.LOAD m], [Instr.EVAL m]])
          ++ ms'.flatMap fun m => [[Instr.LOAD m], [Instr.EVAL m]] := by
      simp [List.append_assoc]
    rw [hassoc]
    exact hrec

theorem resPQ_append_gen (fixed : List String) (var : Option String) (g : List String)
    (pre : List (List Instr)) (hP : resP fixed pre) (hQ : resQ pre var) :
    resP fixed (pre ++ emitGenCycles fixed var g)
    ∧ resQ (pre ++ emitGenCycles fixed var g) (nextVarOf fixed var g) := by
  have hav : ∀ x ∈ (dedupFirst g).filter fun x => availB fixed var x,
      availB fixed var x = true := fun x hx => (List.mem_filter.mp hx).2
  have step1 : resP fixed (pre ++ (if (dedupFirst g).filter (fun x => availB fixed var x) = []
        then [] else [((dedupFirst g).filter fun x => availB fixed var x).map Instr.EVAL]))
      ∧ resQ (pre ++ (if (dedupFirst g).filter (fun x => availB fixed var x) = []
        then [] else [((dedupFirst g).filter fun x => availB fixed var x).map Instr.EVAL]))
        var := by
    split
    · simpa using ⟨hP, hQ⟩
    · exact resPQ_append_eval_cycle fixed pre var _ hP hQ hav
  have step2 := resPQ_append_pairs fixed
    ((dedupFirst g).filter fun x => !availB fixed var x) _ var step1.1 step1.2
  rw [lastD_eq] at step2
  unfold emitGenCycles nextVarOf
  rw [← List.append_assoc]
  exact step2

theorem emitLoop_resP (fixed : List String) (gens : List (List String)) :
    ∀ var pre, resP fixed pre → resQ pre var →
      resP fixed (pre ++ emitLoop fixed var gens) := by
  induction gens with
  | nil =>
    intro var pre hP _
    simpa [emitLoop] using hP
  | cons g rest ih =>
    intro var pre hP hQ
    have hgen := resPQ_append_gen fixed var g pre hP hQ
    have hrec := ih (nextVarOf fixed var g) (pre ++ emitGenCycles fixed var g) hgen.1 hgen.2
    rw [List.append_assoc] at hrec
    simpa [emitLoop] using hrec

/-- C2: in every schedule emitted by the ISO scheduler, every EVAL
instruction's pattern either belongs to the fixed prefix of the sorted
pattern keys — loaded in the initial cycle — or some cycle at or before the
EVAL loads that very pattern with no load of a different pattern in any
cycle in between. -/
theorem iso_schedule_residency (keys : List String) (mid : Nat)
    (gens : List (List String)) (i : Nat) (h : String)
    (hev : Instr.EVAL h ∈ (emitSchedule keys mid gens).getD i []) :
    (h ∈ keys.take mid ∧ Instr.LOAD h ∈ (emitSchedule keys mid gens).getD 0 []) ∨
    ∃ j, j ≤ i ∧ Instr.LOAD h ∈ (emitSchedule keys mid gens).getD j [] ∧
      ∀ k h', j < k → k ≤ i → Instr.LOAD h' ∈ (emitSchedule keys mid gens).getD k [] →
        h' = h := by
  have hP0 : resP (keys.take mid)
      (if keys.take mid = [] then [] else [(keys.take mid).map Instr.LOAD]) := by
    intro i' h' hev'
    exfalso
    by_cases hf : keys.take mid = []
    · rw [if_pos hf] at hev'
      rw [List.getD_eq_default _ _ (by simp)] at hev'
      exact List.not_mem_nil _ hev'
    · rw [if_neg hf] at hev'
      by_cases hi' : i' = 0
      · subst hi'
        simp only [List.getD_cons_zero] at hev'
        obtain ⟨x, _, heq⟩ := List.mem_map.mp hev'
        cases heq
      · rw [List.getD_eq_default _ _ (by simp only [List.length_singleton]; omega)] at hev'
        exact List.not_mem_nil _ hev'
  have hQ0 : resQ (if keys.take mid = [] then [] else [(keys.take mid).map Instr.LOAD])
      none := by
    intro v hv
    cases hv
  have hmain := emitLoop_resP (keys.take mid) gens none _ hP0 hQ0
  unfold emitSchedule at hev ⊢
  rcases hmain i h hev with hfix | hrest
  · left
    refine ⟨hfix, ?_⟩
    have hf : keys.take mid ≠ [] := by
      intro hnil
      rw [hnil] at hfix
      exact List.not_mem_nil h hfix
    rw [if_neg hf, List.getD_append _ _ _ _ (by simp), List.getD_cons_zero]
    exact List.mem_map.mpr ⟨h, hfix, rfl⟩
  · right
    exact hrest

/-- C2 witness: keys p and q with one fixed slot and one generation holding
both patterns; the EVAL of p in cycle 1 satisfies the residency property. -/
theorem iso_schedule_residency_witness :
    (Instr.EVAL "p" ∈ (emitSchedule ["p", "q"] 1 [["p", "q"]]).getD 1 []) ∧
    ((("p" : String) ∈ (["p", "q"].take 1) ∧
        Instr.LOAD "p" ∈ (emitSchedule ["p", "q"] 1 [["p", "q"]]).getD 0 []) ∨
      ∃ j, j ≤ 1 ∧ Instr.LOAD "p" ∈ (emitSchedule ["p", "q"] 1 [["p", "q"]]).getD j [] ∧
        ∀ k h', j < k → k ≤ 1 →
          Instr.LOAD h' ∈ (emitSchedule ["p", "q"] 1 [["p", "q"]]).getD k [] → h' = "p") :=
  ⟨by decide, iso_schedule_residency ["p", "q"] 1 [["p", "q"]] 1 "p" (by decide)⟩

theorem foldl_max_comm (l : List Nat) : ∀ a : Nat, l.foldl max a = max a (l.foldl max 0) := by
  induction l with
  | nil => intro a; simp
  | cons b l ih =>
    intro a
    rw [List.foldl_cons, List.foldl_cons, ih (max a b), ih (max 0 b)]
    simp only [Nat.zero_max]
    omega

theorem listMax_cons (a : Nat) (l : List Nat) : listMax (a :: l) = max a (listMax l) := by
  unfold listMax
  rw [List.foldl_cons, foldl_max_comm]
  simp [Nat.zero_max]

theorem le_listMax (l : List Nat) (x : Nat) (hx : x ∈ l) : x ≤ listMax l := by
  induction l with
  | nil => cases hx
  | cons a l ih =>
    rw [listMax_cons]
    rcases List.mem_cons.mp hx with rfl | hx
    · omega
    · have := ih hx
      omega

theorem listMax_le (l : List Nat) (B : Nat) (h : ∀ x ∈ l, x ≤ B) : listMax l ≤ B := by
  induction l with
  | nil => simp [listMax]
  | cons a l ih =>
    rw [listMax_cons]
    have h1 := h a (by simp)
    have h2 := ih fun x hx => h x (by simp [hx])
    omega

theorem pyTake_natCast {α : Type} (xs : List α) (k : Nat) :
    pyTake xs (k : Int) = xs.take k := by
  unfold pyTake
  rw [if_pos (by omega)]
  simp

theorem pyDrop_natCast {α : Type} (xs : List α) (k : Nat) :
    pyDrop xs (k : Int) = xs.drop k := by
  unfold pyDrop
  rw [if_pos (by omega)]
  simp

theorem feasibleSliceB_iff (vals : List Stat) (D : Nat) (mid : Int) :
    feasibleSliceB vals D mid = true ↔
      fixedRowsAt vals mid ≤ D ∧ fixedColsAt vals mid ≤ D ∧
      fixedRowsAt vals mid + largestVarRowAt vals mid ≤ D ∧
      fixedColsAt vals mid + largestVarColAt vals mid ≤ D := by
  unfold feasibleSliceB
  by_cases h1 : fixedRowsAt vals mid > D ∨ fixedColsAt vals mid > D
  · rw [if_pos h1]
    simp only [Bool.false_eq_true, false_iff]
    intro hR
    rcases h1 with h1 | h1 <;> omega
  · rw [if_neg h1]
    push_neg at h1
    by_cases h2 : fixedRowsAt vals mid + largestVarRowAt vals mid > D ∨
        fixedColsAt vals mid + largestVarColAt vals mid > D
    · rw [if_pos h2]
      simp only [Bool.false_eq_true, false_iff]
      intro hR
      rcases h2 with h2 | h2 <;> omega
    · rw [if_neg h2]
      push_neg at h2
      simp only [true_iff]
      exact ⟨h1.1, h1.2, h2.1, h2.2⟩

theorem fixedRowsAt_succ (vals : List Stat) (k : Nat) (hk : k < vals.length) :
    fixedRowsAt vals ((k : Nat) + 1 : Nat)
      = fixedRowsAt vals (k : Int) + (vals.get ⟨k, hk⟩).2.1 := by
  unfold fixedRowsAt
  rw [pyTake_natCast, pyTake_natCast, List.map_take, List.map_take,
    List.sum_take_succ _ k (by simpa using hk)]
  simp

theorem fixedColsAt_succ (vals : List Stat) (k : Nat) (hk : k < vals.length) :
    fixedColsAt vals ((k : Nat) + 1 : Nat)
      = fixedColsAt vals (k : Int) + (vals.get ⟨k, hk⟩).2.2 := by
  unfold fixedColsAt
  rw [pyTake_natCast, pyTake_natCast, List.map_take, List.map_take,
    List.sum_take_succ _ k (by simpa using hk)]
  simp

theorem largestVarRowAt_cons (vals : List Stat) (k : Nat) (hk : k < vals.length) :
    largestVarRowAt vals (k : Int)
      = max (vals.get ⟨k, hk⟩).2.1 (largestVarRowAt vals ((k : Nat) + 1 : Nat)) := by
  unfold largestVarRowAt
  rw [if_neg (by omega)]
  rw [pyDrop_natCast, List.drop_eq_getElem_cons hk, List.map_cons, listMax_cons]
  by_cases hk1 : k + 1 = vals.length
  · rw [if_pos (by omega)]
    have hdrop : vals.drop (k + 1) = [] := by
      apply List.drop_eq_nil_of_le
      omega
    rw [hdrop]
    simp [listMax]
  · rw [if_neg (by omega)]
    rw [pyDrop_natCast, List.get_eq_getElem]

theorem largestVarColAt_cons (vals : List Stat) (k : Nat) (hk : k < vals.length) :
    largestVarColAt vals (k : Int)
      = max (vals.get ⟨k, hk⟩).2.2 (largestVarColAt vals ((k : Nat) + 1 : Nat)) := by
  unfold largestVarColAt
  rw [if_neg (by omega)]
  rw [pyDrop_natCast, List.drop_eq_getElem_cons hk, List.map_cons, listMax_cons]
  by_cases hk1 : k + 1 = vals.length
  · rw [if_pos (by omega)]
    have hdrop : vals.drop (k + 1) = [] := by
      apply List.drop_eq_nil_of_le
      omega
    rw [hdrop]
    simp [listMax]
  · rw [if_neg (by omega)]
    rw [pyDrop_natCast, List.get_eq_getElem]

theorem feasibleB_step (vals : List Stat) (D : Nat) (k : Nat) (hk : k < vals.length)
    (h : feasibleB vals D (k + 1) = true) : feasibleB vals D k = true := by
  unfold feasibleB at h ⊢
  rw [feasibleSliceB_iff] at h ⊢
  obtain ⟨h1, h2, h3, h4⟩ := h
  rw [fixedRowsAt_succ vals k hk] at h1 h3
  rw [fixedColsAt_succ vals k hk] at h2 h4
  rw [largestVarRowAt_cons vals k hk, largestVarColAt_cons vals k hk]
  push_cast at h1 h2 h3 h4 ⊢
  refine ⟨by omega, by omega, by omega, by omega⟩

theorem feasibleB_downward (vals : List Stat) (D : Nat) (m : Nat)
    (hm : m ≤ vals.length) (hfeas : feasibleB vals D m = true) :
    ∀ k, k ≤ m → feasibleB vals D k = true := by
  induction m with
  | zero =>
    intro k hk
    rw [Nat.le_zero.mp hk]
    exact hfeas
  | succ m ih =>
    intro k hk
    have hstep : feasibleB vals D m = true := feasibleB_step vals D m (by omega) hfeas
    rcases Nat.lt_or_ge k (m + 1) with hlt | hge
    · exact ih (by omega) hstep k (by omega)
    · have : k = m + 1 := by omega
      rw [this]
      exact hfeas

theorem feasibleSliceB_toNat (vals : List Stat) (D : Nat) (mid : Int) (h : 0 ≤ mid) :
    feasibleSliceB vals D mid = feasibleB vals D mid.toNat := by
  unfold feasibleB
  rw [Int.toNat_of_nonneg h]

theorem bsearchGo_spec (vals : List Stat) (D : Nat) (low high : Int) :
    0 ≤ low → high ≤ (vals.length : Int) → low ≤ high + 1 →
    (∀ k : Nat, (k : Int) < low → feasibleB vals D k = true) →
    (∀ k : Nat, k ≤ vals.length → high < (k : Int) → feasibleB vals D k = false) →
    ((bsearchGo vals D low high = -1 ∧
        ∀ k : Nat, k ≤ vals.length → feasibleB vals D k = false)
    ∨ (∃ m : Nat, bsearchGo vals D low high = (m : Int) ∧ m ≤ vals.length ∧
        feasibleB vals D m = true ∧
        ∀ k : Nat, k ≤ vals.length → feasibleB vals D k = true → k ≤ m)) := by
  induction low, high using bsearchGo.induct vals D with
  | case1 low high hle hfeas ih =>
    intro h0 hhi hlh hbelow habove
    rw [bsearchGo, dif_pos hle, if_pos hfeas]
    have hmlow : low ≤ (low + high) / 2 := by omega
    have hmhigh : (low + high) / 2 ≤ high := by omega
    have hfeasN : feasibleB vals D ((low + high) / 2).toNat = true := by
      rw [← feasibleSliceB_toNat vals D _ (by omega)]
      exact hfeas
    apply ih (by omega) hhi (by omega)
    · intro k hk
      rcases lt_or_ge (k : Int) low with hkl | hkl
      · exact hbelow k hkl
      · exact feasibleB_downward vals D ((low + high) / 2).toNat (by omega) hfeasN k (by omega)
    · exact habove
  | case2 low high hle hfeas ih =>
    intro h0 hhi hlh hbelow habove
    rw [bsearchGo, dif_pos hle, if_neg hfeas]
    have hmlow : low ≤ (low + high) / 2 := by omega
    have hmhigh : (low + high) / 2 ≤ high := by omega
    have hfeasN : feasibleB vals D ((low + high) / 2).toNat = false := by
      rw [← feasibleSliceB_toNat vals D _ (by omega)]
      exact Bool.not_eq_true _ ▸ Bool.eq_false_iff.mpr hfeas
    apply ih h0 (by omega) (by omega) hbelow
    intro k hkn hk
    rcases lt_or_ge high (k : Int) with hkh | hkh
    · exact habove k hkn hkh
    · by_contra hcon
      have hfk : feasibleB vals D k = true := by
        cases hfb : feasibleB vals D k
        · exact absurd hfb hcon
        · rfl
      have := feasibleB_downward vals D k hkn hfk ((low + high) / 2).toNat (by omega)
      rw [this] at hfeasN
      cases hfeasN
  | case3 low high hle =>
    intro h0 hhi hlh hbelow habove
    rw [bsearchGo, dif_neg hle]
    have hexact : low = high + 1 := by omega
    by_cases hneg : high < 0
    · have hh : high = -1 := by omega
      left
      constructor
      · omega
      · intro k hk
        exact habove k hk (by omega)
    · right
      refine ⟨high.toNat, by omega, by omega, ?_, ?_⟩
      · apply hbelow
        omega
      · intro k hkn hfk
        by_contra hgt
        push_neg at hgt
        have := habove k hkn (by omega)
        rw [hfk] at this
        cases this

theorem final_minus_one_ge (vals : List Stat) (f : Stat → Nat) (hne : vals ≠ []) :
    listMax (vals.map f)
      ≤ ((pyTake vals (-1)).map f).sum + listMax ((pyDrop vals (-1)).map f) := by
  have hn : 1 ≤ vals.length := List.length_pos.mpr hne
  have htake : pyTake vals (-1) = vals.take (vals.length - 1) := by
    unfold pyTake
    rw [if_neg (by omega)]
    congr 1
    omega
  have hdrop : pyDrop vals (-1) = vals.drop (vals.length - 1) := by
    unfold pyDrop
    rw [if_neg (by omega)]
    congr 1
    omega
  rw [htake, hdrop]
  apply listMax_le
  intro x hx
  obtain ⟨st, hst, rfl⟩ := List.mem_map.mp hx
  have hsplit : st ∈ vals.take (vals.length - 1) ++ vals.drop (vals.length - 1) := by
    rw [List.take_append_drop]
    exact hst
  rcases List.mem_append.mp hsplit with hmem | hmem
  · have h1 : f st ≤ ((vals.take (vals.length - 1)).map f).sum :=
      List.single_le_sum (by simp) _ (List.mem_map.mpr ⟨st, hmem, rfl⟩)
    omega
  · have h1 : f st ≤ listMax ((vals.drop (vals.length - 1)).map f) :=
      le_listMax _ _ (List.mem_map.mpr ⟨st, hmem, rfl⟩)
    omega

/-- C3: for a nonempty pattern list sorted descending on (occurrences, rows,
columns) and a budget D, the ISO binary search terminates and, whenever some
prefix length is feasible, returns the unique maximum prefix length whose
fixed row and column sums stay within D together with the largest remaining
pattern dimension; when no prefix length (0 included) is feasible it raises
the fatal capacity error (none) instead of returning. -/
theorem iso_capacity_fit (vals : List Stat) (D : Nat)
    (hne : vals ≠ []) (hsorted : sortedDescStats vals) :
    ((∃ k, k ≤ vals.length ∧ feasibleB vals D k = true) →
      ∃ m : Nat, isoFit vals D = some (m : Int) ∧ m ≤ vals.length ∧
        feasibleB vals D m = true ∧
        ∀ k, k ≤ vals.length → feasibleB vals D k = true → k ≤ m)
    ∧ ((∀ k, k ≤ vals.length → feasibleB vals D k = false) → isoFit vals D = none) := by
  clear hsorted
  have hn : 1 ≤ vals.length := List.length_pos.mpr hne
  have hspec := bsearchGo_spec vals D 0 (vals.length : Int) (by omega) (by omega) (by omega)
    (fun k hk => absurd hk (by omega)) (fun k hkn hk => absurd hk (by omega))
  rcases hspec with ⟨hres, hall⟩ | ⟨m, hres, hmn, hfm, hmax⟩
  · constructor
    · rintro ⟨k, hk, hfk⟩
      rw [hall k hk] at hfk
      cases hfk
    · intro _
      have hf0 : feasibleB vals D 0 = false := hall 0 (by omega)
      have hnR : ¬ (fixedRowsAt vals ((0 : Nat) : Int) ≤ D ∧
          fixedColsAt vals ((0 : Nat) : Int) ≤ D ∧
          fixedRowsAt vals ((0 : Nat) : Int) + largestVarRowAt vals ((0 : Nat) : Int) ≤ D ∧
          fixedColsAt vals ((0 : Nat) : Int) + largestVarColAt vals ((0 : Nat) : Int) ≤ D) := by
        rw [← feasibleSliceB_iff]
        unfold feasibleB at hf0
        rw [hf0]
        simp
      have hfr0 : fixedRowsAt vals ((0 : Nat) : Int) = 0 := by
        simp [fixedRowsAt, pyTake]
      have hfc0 : fixedColsAt vals ((0 : Nat) : Int) = 0 := by
        simp [fixedColsAt, pyTake]
      have hpd0 : pyDrop vals ((0 : Nat) : Int) = vals := by
        simp [pyDrop]
      have hlvr0 : largestVarRowAt vals ((0 : Nat) : Int)
          = listMax (vals.map fun x => x.2.1) := by
        unfold largestVarRowAt
        rw [if_neg (by omega), hpd0]
      have hlvc0 : largestVarColAt vals ((0 : Nat) : Int)
          = listMax (vals.map fun x => x.2.2) := by
        unfold largestVarColAt
        rw [if_neg (by omega), hpd0]
      rw [hfr0, hfc0, hlvr0, hlvc0] at hnR
      push_neg at hnR
      have hbig : listMax (vals.map fun x => x.2.1) > D ∨
          listMax (vals.map fun x => x.2.2) > D := by
        by_cases hr : listMax (vals.map fun x => x.2.1) > D
        · exact Or.inl hr
        · right
          have := hnR (by omega) (by omega) (by omega)
          omega
      unfold isoFit
      rw [hres]
      rw [if_neg ?hc]
      case hc =>
        unfold finalCheckB
        rw [if_pos ?hd]
        · simp
        case hd =>
          have hgr := final_minus_one_ge vals (fun x => x.2.1) hne
          have hgc := final_minus_one_ge vals (fun x => x.2.2) hne
          have hlvrm : largestVarRowAt vals (-1)
              = listMax ((pyDrop vals (-1)).map fun x => x.2.1) := by
            unfold largestVarRowAt
            rw [if_neg (by omega)]
          have hlvcm : largestVarColAt vals (-1)
              = listMax ((pyDrop vals (-1)).map fun x => x.2.2) := by
            unfold largestVarColAt
            rw [if_neg (by omega)]
          unfold fixedRowsAt fixedColsAt
          rw [hlvrm, hlvcm]
          rcases hbig with hbig | hbig
          · left
            omega
          · right
            omega
  · constructor
    · intro _
      refine ⟨m, ?_, hmn, hfm, hmax⟩
      have hOK : finalCheckB vals D ((m : Nat) : Int) = true := by
        obtain ⟨c1, c2, c3, c4⟩ := (feasibleSliceB_iff vals D ((m : Nat) : Int)).mp hfm
        unfold finalCheckB
        rw [if_neg (by omega)]
      unfold isoFit
      rw [hres, if_pos hOK]
    · intro hallinf
      rw [hallinf m hmn] at hfm
      cases hfm

/-- C3 witness: one pattern of size 1 x 1 occurring twice under budget 1;
both prefix lengths are feasible and the fit returns the maximum, 1. -/
theorem iso_capacity_fit_witness :
    (([((2 : Nat), (1 : Nat), (1 : Nat))] : List Stat) ≠ []) ∧
    sortedDescStats ([((2 : Nat), (1 : Nat), (1 : Nat))] : List Stat) ∧
    (∃ k, k ≤ ([((2 : Nat), (1 : Nat), (1 : Nat))] : List Stat).length ∧
      feasibleB ([((2 : Nat), (1 : Nat), (1 : Nat))] : List Stat) 1 k = true) ∧
    ((∃ k, k ≤ ([((2 : Nat), (1 : Nat), (1 : Nat))] : List Stat).length ∧
        feasibleB ([((2 : Nat), (1 : Nat), (1 : Nat))] : List Stat) 1 k = true) →
      ∃ m : Nat, isoFit ([((2 : Nat), (1 : Nat), (1 : Nat))] : List Stat) 1 = some (m : Int) ∧
        m ≤ ([((2 : Nat), (1 : Nat), (1 : Nat))] : List Stat).length ∧
        feasibleB ([((2 : Nat), (1 : Nat), (1 : Nat))] : List Stat) 1 m = true ∧
        ∀ k, k ≤ ([((2 : Nat), (1 : Nat), (1 : Nat))] : List Stat).length →
          feasibleB ([((2 : Nat), (1 : Nat), (1 : Nat))] : List Stat) 1 k = true → k ≤ m) := by
  refine ⟨List.cons_ne_nil _ _, ?_, ⟨1, by decide, by decide⟩, ?_⟩
  · unfold sortedDescStats
    simp
  · exact (iso_capacity_fit ([((2 : Nat), (1 : Nat), (1 : Nat))] : List Stat) 1
      (List.cons_ne_nil _ _) (by unfold sortedDescStats; simp)).1

theorem mem_closureStep_iff {α : Type} [DecidableEq α] (nodes : List α)
    (adj : α → α → Bool) (s : List α) (x : α) :
    x ∈ closureStep nodes adj s ↔
      x ∈ nodes ∧ (x ∈ s ∨ ∃ u ∈ s, adj u x = true) := by
  unfold closureStep
  simp [List.mem_filter]

theorem closureStep_sound {α : Type} [DecidableEq α] (nodes : List α)
    (adj : α → α → Bool) (src : α) (s : List α)
    (hs : ∀ x ∈ s, Relation.ReflTransGen (fun u v => adj u v = true) src x) :
    ∀ x ∈ closureStep nodes adj s,
      Relation.ReflTransGen (fun u v => adj u v = true) src x := by
  intro x hx
  rcases ((mem_closureStep_iff nodes adj s x).mp hx).2 with h | ⟨u, hu, ha⟩
  · exact hs x h
  · exact (hs u hu).tail ha

theorem closureIter_sound {α : Type} [DecidableEq α] (nodes : List α)
    (adj : α → α → Bool) (src : α) :
    ∀ (n : Nat) (s : List α),
      (∀ x ∈ s, Relation.ReflTransGen (fun u v => adj u v = true) src x) →
      ∀ x ∈ closureIter nodes adj n s,
        Relation.ReflTransGen (fun u v => adj u v = true) src x := by
  intro n
  induction n with
  | zero => intro s hs; exact hs
  | succ n ih =>
    intro s hs x hx
    exact closureStep_sound nodes adj src (closureIter nodes adj n s) (ih s hs) x hx

theorem closureIter_subset_nodes {α : Type} [DecidableEq α] (nodes : List α)
    (adj : α → α → Bool) (s : List α) (hs : ∀ x ∈ s, x ∈ nodes) :
    ∀ (n : Nat), ∀ x ∈ closureIter nodes adj n s, x ∈ nodes := by
  intro n
  cases n with
  | zero => exact hs
  | succ n =>
    intro x hx
    exact ((mem_closureStep_iff nodes adj (closureIter nodes adj n s) x).mp hx).1

theorem closureStep_mono {α : Type} [DecidableEq α] (nodes : List α)
    (adj : α → α → Bool) (s t : List α) (hst : ∀ x ∈ s, x ∈ t) :
    ∀ x ∈ closureStep nodes adj s, x ∈ closureStep nodes adj t := by
  intro x hx
  obtain ⟨hxn, hor⟩ := (mem_closureStep_iff nodes adj s x).mp hx
  refine (mem_closureStep_iff nodes adj t x).mpr ⟨hxn, ?_⟩
  rcases hor with h | ⟨u, hu, ha⟩
  · exact Or.inl (hst x h)
  · exact Or.inr ⟨u, hst u hu, ha⟩

theorem closureIter_le_succ {α : Type} [DecidableEq α] (nodes : List α)
    (adj : α → α → Bool) (s : List α) (hs : ∀ x ∈ s, x ∈ nodes) :
    ∀ (n : Nat), ∀ x ∈ closureIter nodes adj n s, x ∈ closureIter nodes adj (n + 1) s := by
  intro n
  induction n with
  | zero =>
    intro x hx
    exact (mem_closureStep_iff nodes adj s x).mpr ⟨hs x hx, Or.inl hx⟩
  | succ n ih =>
    exact closureStep_mono nodes adj (closureIter nodes adj n s)
      (closureIter nodes adj (n + 1) s) ih

theorem closureIter_mono_fuel {α : Type} [DecidableEq α] (nodes : List α)
    (adj : α → α → Bool) (s : List α) (hs : ∀ x ∈ s, x ∈ nodes)
    (m n : Nat) (hmn : m ≤ n) :
    ∀ x ∈ closureIter nodes adj m s, x ∈ closureIter nodes adj n s := by
  induction n, hmn using Nat.le_induction with
  | base => intro x hx; exact hx
  | succ n hn ih =>
    intro x hx
    exact closureIter_le_succ nodes adj s hs n x (ih x hx)

theorem closureIter_stab {α : Type} [DecidableEq α] (nodes : List α)
    (adj : α → α → Bool) (s : List α) (hs : ∀ x ∈ s, x ∈ nodes) (k : Nat)
    (hk : ∀ x, x ∈ closureIter nodes adj (k + 1) s ↔ x ∈ closureIter nodes adj k s) :
    ∀ n, k ≤ n →
      ∀ x, x ∈ closureIter nodes adj n s ↔ x ∈ closureIter nodes adj k s := by
  intro n hn
  induction n, hn using Nat.le_induction with
  | base => intro x; exact Iff.rfl
  | succ n hn ih =>
    intro x
    constructor
    · intro hx
      exact (hk x).mp (closureStep_mono nodes adj (closureIter nodes adj n s)
        (closureIter nodes adj k s) (fun y hy => (ih y).mp hy) x hx)
    · intro hx
      exact closureIter_le_succ nodes adj s hs n x ((ih x).mpr hx)

theorem closureIter_card_growth {α : Type} [DecidableEq α] (nodes : List α)
    (adj : α → α → Bool) (s : List α) (hs : ∀ x ∈ s, x ∈ nodes) :
    ∀ m : Nat,
      (∀ k, k < m →
        ¬ (∀ x, x ∈ closureIter nodes adj (k + 1) s ↔ x ∈ closureIter nodes adj k s)) →
      s.toFinset.card + m ≤ (closureIter nodes adj m s).toFinset.card := by
  intro m
  induction m with
  | zero => intro _; simp [closureIter]
  | succ m ih =>
    intro h
    have hm := ih (fun k hk => h k (Nat.lt_succ_of_lt hk))
    have hne := h m (Nat.lt_succ_self m)
    have hsub : (closureIter nodes adj m s).toFinset
        ⊆ (closureIter nodes adj (m + 1) s).toFinset := by
      intro x hx
      rw [List.mem_toFinset] at hx ⊢
      exact closureIter_le_succ nodes adj s hs m x hx
    have hneq : (closureIter nodes adj m s).toFinset
        ≠ (closureIter nodes adj (m + 1) s).toFinset := by
      intro hEq
      apply hne
      intro x
      constructor
      · intro hx
        have hx1 : x ∈ (closureIter nodes adj (m + 1) s).toFinset :=
          List.mem_toFinset.mpr hx
        rw [← hEq] at hx1
        exact List.mem_toFinset.mp hx1
      · intro hx
        have hx1 : x ∈ (closureIter nodes adj m s).toFinset := List.mem_toFinset.mpr hx
        rw [hEq] at hx1
        exact List.mem_toFinset.mp hx1
    have hlt := Finset.card_lt_card (Finset.ssubset_iff_subset_ne.mpr ⟨hsub, hneq⟩)
    omega

theorem closureIter_exists_stab {α : Type} [DecidableEq α] (nodes : List α)
    (adj : α → α → Bool) (src : α) (hsrc : src ∈ nodes) :
    ∃ k, k ≤ nodes.length ∧
      ∀ x, x ∈ closureIter nodes adj (k + 1) [src] ↔ x ∈ closureIter nodes adj k [src] := by
  by_contra hcon
  have hall : ∀ k, k < nodes.length + 1 →
      ¬ (∀ x, x ∈ closureIter nodes adj (k + 1) [src] ↔ x ∈ closureIter nodes adj k [src]) := by
    intro k hk hP
    exact hcon ⟨k, Nat.lt_succ_iff.mp hk, hP⟩
  have hs : ∀ x ∈ [src], x ∈ nodes := by
    intro x hx
    rw [List.mem_singleton] at hx
    exact hx ▸ hsrc
  have hgrow := closureIter_card_growth nodes adj [src] hs (nodes.length + 1) hall
  have hsubn : (closureIter nodes adj (nodes.length + 1) [src]).toFinset
      ⊆ nodes.toFinset := by
    intro x hx
    rw [List.mem_toFinset] at hx ⊢
    exact closureIter_subset_nodes nodes adj [src] hs (nodes.length + 1) x hx
  have h1 := Finset.card_le_card hsubn
  have h2 := List.toFinset_card_le nodes
  have h3 : ([src] : List α).toFinset.card = 1 := by simp
  omega

theorem reachList_closed {α : Type} [DecidableEq α] (nodes : List α)
    (adj : α → α → Bool) (src : α) (hsrc : src ∈ nodes) :
    ∀ u ∈ reachList nodes adj src, ∀ v, adj u v = true → v ∈ nodes →
      v ∈ reachList nodes adj src := by
  obtain ⟨k, hk, hstab⟩ := closureIter_exists_stab nodes adj src hsrc
  have hs : ∀ x ∈ [src], x ∈ nodes := by
    intro x hx
    rw [List.mem_singleton] at hx
    exact hx ▸ hsrc
  have hiter := closureIter_stab nodes adj [src] hs k hstab nodes.length hk
  intro u hu v hadj hvn
  have hu1 : u ∈ closureIter nodes adj k [src] := (hiter u).mp hu
  have hv1 : v ∈ closureStep nodes adj (closureIter nodes adj k [src]) :=
    (mem_closureStep_iff nodes adj (closureIter nodes adj k [src]) v).mpr
      ⟨hvn, Or.inr ⟨u, hu1, hadj⟩⟩
  exact (hiter v).mpr ((hstab v).mp hv1)

theorem reachList_sound {α : Type} [DecidableEq α] (nodes : List α)
    (adj : α → α → Bool) (src dst : α) (h : dst ∈ reachList nodes adj src) :
    Relation.ReflTransGen (fun u v => adj u v = true) src dst := by
  refine closureIter_sound nodes adj src nodes.length [src] ?_ dst h
  intro x hx
  rw [List.mem_singleton] at hx
  exact hx ▸ Relation.ReflTransGen.refl

theorem reachList_complete {α : Type} [DecidableEq α] (nodes : List α)
    (adj : α → α → Bool) (src dst : α) (hsrc : src ∈ nodes)
    (hadj : ∀ u v, adj u v = true → v ∈ nodes)
    (h : Relation.ReflTransGen (fun u v => adj u v = true) src dst) :
    dst ∈ reachList nodes adj src := by
  induction h with
  | refl =>
    refine closureIter_mono_fuel nodes adj [src] ?_ 0 nodes.length (Nat.zero_le _)
      src (List.mem_singleton.mpr rfl)
    intro x hx
    rw [List.mem_singleton] at hx
    exact hx ▸ hsrc
  | tail hab hbc ih =>
    exact reachList_closed nodes adj src hsrc _ ih _ hbc (hadj _ _ hbc)

theorem hasPathB_iff_reach {α : Type} [DecidableEq α] (nodes : List α)
    (adj : α → α → Bool) (src dst : α) (hsrc : src ∈ nodes)
    (hadj : ∀ u v, adj u v = true → v ∈ nodes) :
    hasPathB nodes adj src dst = true ↔
      Relation.ReflTransGen (fun u v => adj u v = true) src dst := by
  unfold hasPathB
  constructor
  · intro h
    exact reachList_sound nodes adj src dst (by simpa using h)
  · intro h
    simpa using reachList_complete nodes adj src dst hsrc hadj h

theorem forceFold_fields (entries : List (String × Nat × Nat)) (f : String) (cb : Xbar) :
    ((entries.foldl (fun acc e => if f ≠ e.1 then forceRow acc e.2.1 e.2.2 else acc)
        cb).rows = cb.rows)
    ∧ ((entries.foldl (fun acc e => if f ≠ e.1 then forceRow acc e.2.1 e.2.2 else acc)
        cb).columns = cb.columns)
    ∧ ((entries.foldl (fun acc e => if f ≠ e.1 then forceRow acc e.2.1 e.2.2 else acc)
        cb).layers = cb.layers)
    ∧ ((entries.foldl (fun acc e => if f ≠ e.1 then forceRow acc e.2.1 e.2.2 else acc)
        cb).input_nanowires = cb.input_nanowires)
    ∧ ((entries.foldl (fun acc e => if f ≠ e.1 then forceRow acc e.2.1 e.2.2 else acc)
        cb).output_nanowires = cb.output_nanowires) := by
  induction entries generalizing cb with
  | nil => exact ⟨rfl, rfl, rfl, rfl, rfl⟩
  | cons e rest ih =>
    simp only [List.foldl_cons]
    by_cases hf : f ≠ e.1
    · rw [if_pos hf]
      obtain ⟨h1, h2, h3, h4, h5⟩ := forceRow_fields cb e.2.1 e.2.2
      obtain ⟨g1, g2, g3, g4, g5⟩ := ih (forceRow cb e.2.1 e.2.2)
      exact ⟨g1.trans h1, g2.trans h2, g3.trans h3, g4.trans h4, g5.trans h5⟩
    · rw [if_neg hf]
      exact ih cb

theorem forceInputRows_fields (cb : Xbar) (f : String) :
    (forceInputRows cb f).rows = cb.rows
    ∧ (forceInputRows cb f).columns = cb.columns
    ∧ (forceInputRows cb f).layers = cb.layers
    ∧ (forceInputRows cb f).input_nanowires = cb.input_nanowires
    ∧ (forceInputRows cb f).output_nanowires = cb.output_nanowires :=
  forceFold_fields cb.input_nanowires f cb

theorem nodesOf_congr (a b : Xbar) (h1 : a.layers = b.layers) (h2 : a.rows = b.rows)
    (h3 : a.columns = b.columns) : nodesOf a = nodesOf b := by
  unfold nodesOf
  rw [h1, h2, h3]

theorem condAdj_mem_nodes (cb : Xbar) (u v : Nat × Nat) (h : condAdj cb u v = true) :
    v ∈ nodesOf cb := by
  unfold condAdj at h
  simp only [List.any_eq_true, List.mem_range, decide_eq_true_eq] at h
  obtain ⟨l, hl, r, hr, c, hc, _, hor⟩ := h
  unfold nodesOf
  rw [List.mem_dedup]
  simp only [List.mem_flatMap, List.mem_range]
  refine ⟨l, hl, r, hr, c, hc, ?_⟩
  rcases hor with h | h
  · have hv : v = (edgeNodes l r c).2 := by rw [h]
    rw [hv]
    simp
  · have hv : v = (edgeNodes l r c).1 := by rw [h]
    rw [hv]
    simp

theorem mapM_option_eq_map {α β : Type} (g : α → β) (h : α → Option β) (l : List α)
    (hl : ∀ x ∈ l, h x = some (g x)) : l.mapM h = some (l.map g) := by
  induction l with
  | nil => rfl
  | cons a t ih =>
    rw [List.mapM_cons, hl a (List.mem_cons_self a t),
      ih (fun x hx => hl x (List.mem_cons_of_mem a hx))]
    rfl

/-- C1: for every crossbar, instance and selected input rail (the rail
present in the input dict, the instance covering every non-constant
non-stuck atom of the forced crossbar, and the rail nodes lying in the
graph, i.e. has_path raises no NodeNotFound), eval returns a dict mapping
each output rail to a Boolean that is True exactly when the pruned graph of
the forced-and-instantiated crossbar — whose surviving edges are the cells
equal to the constant True literal — connects the output rail's node to the
selected input rail's node. -/
theorem eval_path_semantics (cb : Xbar) (inst : String → Option Bool) (f : String)
    (li ii : Nat)
    (hf : dictGet? cb.input_nanowires f = some (li, ii))
    (hcov : instOK (forceInputRows cb f) inst = true)
    (hsnk : (li, ii) ∈ nodesOf cb)
    (hout : ∀ e ∈ cb.output_nanowires, (e.2.1, e.2.2) ∈ nodesOf cb) :
    ∃ evs, evalXbar cb inst f = some evs ∧
      ∀ o lo io, (o, (lo, io)) ∈ cb.output_nanowires →
        ∃ b, (o, b) ∈ evs ∧
          (b = true ↔ Relation.ReflTransGen
            (fun u v => condAdj (instResult (forceInputRows cb f) inst) u v = true)
            (lo, io) (li, ii)) := by
  obtain ⟨hrw, hcl, hly, hin, hon⟩ := forceInputRows_fields cb f
  have hinst : instantiateX (forceInputRows cb f) inst
      = some (instResult (forceInputRows cb f) inst) := by
    unfold instantiateX
    rw [if_pos hcov]
  have hnodes : nodesOf (instResult (forceInputRows cb f) inst) = nodesOf cb :=
    nodesOf_congr _ _ hly hrw hcl
  have hins : (instResult (forceInputRows cb f) inst).input_nanowires
      = cb.input_nanowires := hin
  have houts : (instResult (forceInputRows cb f) inst).output_nanowires
      = cb.output_nanowires := hon
  refine ⟨cb.output_nanowires.map (fun e =>
      (e.1, hasPathB (nodesOf cb)
        (condAdj (instResult (forceInputRows cb f) inst)) (e.2.1, e.2.2) (li, ii))),
    ?_, ?_⟩
  · unfold evalXbar
    simp only [hinst, hins, houts, hnodes, hf]
    refine mapM_option_eq_map _ _ cb.output_nanowires ?_
    intro e he
    rw [if_pos ⟨hout e he, hsnk⟩]
  · intro o lo io he
    refine ⟨hasPathB (nodesOf cb)
        (condAdj (instResult (forceInputRows cb f) inst)) (lo, io) (li, ii),
      List.mem_map.mpr ⟨(o, (lo, io)), he, rfl⟩, ?_⟩
    refine hasPathB_iff_reach (nodesOf cb) _ (lo, io) (li, ii) (hout (o, (lo, io)) he) ?_
    intro u v h
    rw [← hnodes]
    exact condAdj_mem_nodes _ u v h

/-- C1 witness: the 1 x 1 crossbar xbC1 with the instance binding x to true
and the selected input rail 1 satisfies all four hypotheses. -/
theorem eval_path_semantics_witness :
    dictGet? xbC1.input_nanowires "1" = some (0, 0) ∧
    instOK (forceInputRows xbC1 "1") instC1 = true ∧
    (0, 0) ∈ nodesOf xbC1 ∧
    (∀ e ∈ xbC1.output_nanowires, (e.2.1, e.2.2) ∈ nodesOf xbC1) ∧
    (∃ evs, evalXbar xbC1 instC1 "1" = some evs ∧
      ∀ o lo io, (o, (lo, io)) ∈ xbC1.output_nanowires →
        ∃ b, (o, b) ∈ evs ∧
          (b = true ↔ Relation.ReflTransGen
            (fun u v => condAdj (instResult (forceInputRows xbC1 "1") instC1) u v = true)
            (lo, io) (0, 0))) :=
  ⟨by decide, by decide, by decide, by decide,
    eval_path_semantics xbC1 instC1 "1" 0 0 (by decide) (by decide) (by decide) (by decide)⟩

theorem digitChar_isDigit (d : Nat) : isDigitC (digitChar d) = true := by
  unfold digitChar
  split_ifs <;> decide

theorem digitChar_toNat (d : Nat) (hd : d < 10) : (digitChar d).toNat = 48 + d := by
  unfold digitChar
  interval_cases d <;> simp

theorem isDigit_not_space (c : Char) (h : isDigitC c = true) : isSpaceC c = false := by
  unfold isDigitC at h
  unfold isSpaceC
  rw [decide_eq_true_iff] at h
  rw [decide_eq_false_iff_not]
  rintro (rfl | rfl | rfl | rfl) <;> revert h <;> decide

theorem isDigit_isClass (c : Char) (h : isDigitC c = true) : isClassC c = true := by
  unfold isDigitC at h
  unfold isClassC
  rw [decide_eq_true_iff] at h
  rw [decide_eq_true_iff]
  exact Or.inr (Or.inr (Or.inr h))

theorem natDigitsAux_spec (fuel : Nat) :
    ∀ n, n < fuel →
      natDigitsAux fuel n ≠ [] ∧ (natDigitsAux fuel n).all isDigitC = true ∧
      ∀ a : Nat, (natDigitsAux fuel n).foldl (fun acc c => acc * 10 + (c.toNat - 48)) a
        = a * 10 ^ (natDigitsAux fuel n).length + n := by
  induction fuel with
  | zero => intro n hn; omega
  | succ fuel ih =>
    intro n hn
    by_cases h10 : n < 10
    · refine ⟨by simp [natDigitsAux, h10], by simp [natDigitsAux, h10, digitChar_isDigit], ?_⟩
      intro a
      simp only [natDigitsAux, if_pos h10, List.foldl_cons, List.foldl_nil,
        List.length_singleton]
      rw [digitChar_toNat n h10]
      omega
    · have hrec : n / 10 < fuel := by
        have h1 : n / 10 < n := Nat.div_lt_self (by omega) (by omega)
        omega
      obtain ⟨hne, hdig, hfold⟩ := ih (n / 10) hrec
      have heq : natDigitsAux (fuel + 1) n
          = natDigitsAux fuel (n / 10) ++ [digitChar (n % 10)] := by
        simp [natDigitsAux, h10]
      refine ⟨by simp [heq], ?_, ?_⟩
      · rw [heq, List.all_append]
        simp [hdig, digitChar_isDigit]
      · intro a
        rw [heq, List.foldl_append, hfold a, List.length_append]
        simp only [List.foldl_cons, List.foldl_nil, List.length_singleton]
        rw [digitChar_toNat (n % 10) (Nat.mod_lt n (by omega))]
        have hpow : (10 : Nat) ^ ((natDigitsAux fuel (n / 10)).length + 1)
            = 10 ^ (natDigitsAux fuel (n / 10)).length * 10 := pow_succ 10 _
        have hdm := Nat.div_add_mod n 10
        rw [hpow]
        ring_nf
        omega

theorem natToDecL_ne_nil (n : Nat) : natToDecL n ≠ [] :=
  (natDigitsAux_spec (n + 1) n (by omega)).1

theorem natToDecL_digits (n : Nat) : (natToDecL n).all isDigitC = true :=
  (natDigitsAux_spec (n + 1) n (by omega)).2.1

theorem natToDecL_nospace (n : Nat) :
    (natToDecL n).all (fun ch => !isSpaceC ch) = true := by
  rw [List.all_eq_true] at *
  intro c hc
  have := (List.all_eq_true.mp (natToDecL_digits n)) c hc
  simp [isDigit_not_space c this]

theorem decToNatL_natToDecL (n : Nat) : decToNatL (natToDecL n) = some n := by
  obtain ⟨h1, h2, h3⟩ := natDigitsAux_spec (n + 1) n (by omega)
  unfold decToNatL
  rw [if_pos ⟨h1, h2⟩]
  have := h3 0
  unfold natToDecL
  rw [this]
  simp

theorem splitWsAux_cons (acc : List Char) (c : Char) (cs : List Char)
    (hc : isSpaceC c = false) :
    splitWsAux acc (c :: cs) = splitWsAux (c :: acc) cs := by
  simp only [splitWsAux]
  simp [hc]

theorem splitWsAux_token (t : List Char) (hns : t.all (fun ch => !isSpaceC ch) = true) :
    ∀ acc rest, splitWsAux acc (t ++ rest) = splitWsAux (t.reverse ++ acc) rest := by
  induction t with
  | nil => intro acc rest; simp
  | cons c ts ih =>
    intro acc rest
    rw [List.all_cons, Bool.and_eq_true] at hns
    have hc : isSpaceC c = false := by simpa using hns.1
    have h1 : splitWsAux acc ((c :: ts) ++ rest) = splitWsAux (c :: acc) (ts ++ rest) :=
      splitWsAux_cons acc c (ts ++ rest) hc
    rw [h1, ih hns.2 (c :: acc) rest]
    congr 1
    simp

theorem splitWs_spaced (toks : List (List Char))
    (h : ∀ t ∈ toks, t ≠ [] ∧ t.all (fun ch => !isSpaceC ch) = true) :
    splitWs (joinSep ' ' toks) = toks := by
  induction toks with
  | nil => rfl
  | cons t ts ih =>
    obtain ⟨hne, hns⟩ := h t (List.mem_cons_self t ts)
    have hne2 : t.reverse.isEmpty = false := by
      cases ht : t.reverse
      · exact absurd (by simpa using ht) hne
      · rfl
    cases ts with
    | nil =>
      show splitWsAux [] (joinSep ' ' [t]) = [t]
      have hj : joinSep ' ' [t] = t ++ [] := by simp [joinSep]
      rw [hj, splitWsAux_token t hns [] []]
      simp only [splitWsAux]
      rw [List.append_nil, hne2]
      simp
    | cons t2 ts2 =>
      show splitWsAux [] (joinSep ' ' (t :: t2 :: ts2)) = _
      rw [show joinSep ' ' (t :: t2 :: ts2) = t ++ ' ' :: joinSep ' ' (t2 :: ts2) from rfl,
        splitWsAux_token t hns [] (' ' :: joinSep ' ' (t2 :: ts2))]
      have hstep : splitWsAux (t.reverse ++ []) (' ' :: joinSep ' ' (t2 :: ts2))
          = t :: splitWsAux [] (joinSep ' ' (t2 :: ts2)) := by
        rw [List.append_nil]
        simp only [splitWsAux]
        simp [show isSpaceC ' ' = true from rfl, hne2]
      rw [hstep]
      have hih := ih (fun u hu => h u (List.mem_cons_of_mem t hu))
      unfold splitWs at hih
      rw [hih]

theorem splitTabAux_cons (acc : List Char) (c : Char) (cs : List Char)
    (hc : (c = '\t') = False) :
    splitTabAux acc (c :: cs) = splitTabAux (c :: acc) cs := by
  simp only [splitTabAux]
  rw [if_neg (by rw [hc]; exact id)]

theorem splitTabAux_token (t : List Char) (hnt : t.all (fun ch => !(ch = '\t')) = true) :
    ∀ acc rest, splitTabAux acc (t ++ rest) = splitTabAux (t.reverse ++ acc) rest := by
  induction t with
  | nil => intro acc rest; simp
  | cons c ts ih =>
    intro acc rest
    rw [List.all_cons, Bool.and_eq_true] at hnt
    have hc : (c = '\t') = False := by simpa using hnt.1
    have h1 : splitTabAux acc ((c :: ts) ++ rest) = splitTabAux (c :: acc) (ts ++ rest) :=
      splitTabAux_cons acc c (ts ++ rest) hc
    rw [h1, ih hnt.2 (c :: acc) rest]
    congr 1
    simp

theorem splitTab_join (t : List Char) (ts : List (List Char))
    (h : ∀ u ∈ t :: ts, u.all (fun ch => !(ch = '\t')) = true) :
    splitTab (joinSep '\t' (t :: ts)) = t :: ts := by
  induction ts generalizing t with
  | nil =>
    show splitTabAux [] (joinSep '\t' [t]) = [t]
    have hj : joinSep '\t' [t] = t ++ [] := by simp [joinSep]
    rw [hj, splitTabAux_token t (h t (List.mem_cons_self t [])) [] []]
    simp only [splitTabAux]
    simp
  | cons t2 ts2 ih =>
    show splitTabAux [] (joinSep '\t' (t :: t2 :: ts2)) = _
    rw [show joinSep '\t' (t :: t2 :: ts2) = t ++ '\t' :: joinSep '\t' (t2 :: ts2) from rfl,
      splitTabAux_token t (h t (List.mem_cons_self t _)) []
        ('\t' :: joinSep '\t' (t2 :: ts2))]
    have hstep : splitTabAux (t.reverse ++ []) ('\t' :: joinSep '\t' (t2 :: ts2))
        = t :: splitTabAux [] (joinSep '\t' (t2 :: ts2)) := by
      rw [List.append_nil]
      simp only [splitTabAux]
      simp
    rw [hstep]
    have hih := ih t2 (fun u hu => h u (List.mem_cons_of_mem t hu))
    unfold splitTab at hih
    rw [hih]


theorem isClassC_ne (c : Char) (d : Char) (hd : isClassC d = false)
    (h : isClassC c = true) : (d = c) = False := by
  simp only [eq_iff_iff, iff_false]
  intro hdc
  rw [hdc, h] at hd
  cases hd

theorem isClassC_not_tab (c : Char) (h : isClassC c = true) : (c = '\t') = False := by
  simp only [eq_iff_iff, iff_false]
  intro hdc
  rw [hdc] at h
  revert h
  decide

theorem takeWhile_classC (cs : List Char) (h : cs.all isClassC = true) :
    cs.takeWhile isClassC = cs := by
  induction cs with
  | nil => rfl
  | cons c rest ih =>
    rw [List.all_cons, Bool.and_eq_true] at h
    rw [List.takeWhile_cons, if_pos h.1, ih h.2]

theorem charClass_ne (c d : Char) (hc : isClassC c = true) (hd : isClassC d = false) :
    c ≠ d := by
  intro h
  subst h
  rw [hc] at hd
  cases hd

theorem parse_litToToken (l : Literal) (h : okLit l) :
    parseRawLiteral (litToToken l) = some l := by
  rcases h with h | h | ⟨hne, hcls, hhead⟩
  · rw [h]; rfl
  · rw [h]; rfl
  · obtain ⟨atom, pos⟩ := l
    obtain ⟨data⟩ := atom
    cases data with
    | nil => exact absurd rfl hne
    | cons c rest =>
      have hcr : (c :: rest).all isClassC = true := hcls
      rw [List.all_cons, Bool.and_eq_true] at hcr
      have hcc : isClassC c = true := hcr.1
      have hrest : rest.all isClassC = true := hcr.2
      have hT : Literal.mk (String.mk (c :: rest)) pos ≠ TRUEL := by
        intro hEq
        have h1 : c :: rest = ['T', 'r', 'u', 'e'] :=
          congrArg (fun t : Literal => t.atom.data) hEq
        injection h1 with hcT _
        rw [hcT] at hcc
        revert hcc
        decide
      have hF : Literal.mk (String.mk (c :: rest)) pos ≠ FALSEL := by
        intro hEq
        have h1 : c :: rest = ['F', 'a', 'l', 's', 'e'] :=
          congrArg (fun t : Literal => t.atom.data) hEq
        injection h1 with hcF _
        rw [hcF] at hcc
        revert hcc
        decide
      have hgoalT : litToToken (Literal.mk (String.mk (c :: rest)) pos)
          = if pos = true then c :: rest else '~' :: c :: rest := by
        unfold litToToken
        rw [if_neg hT, if_neg hF]
      cases pos with
      | true =>
        have hh : (c :: rest).head? ≠ some '0' ∧ (c :: rest).head? ≠ some '1' := hhead rfl
        have h0 : c ≠ '0' := by
          intro hc0
          exact hh.1 (by rw [hc0]; rfl)
        have h1 : c ≠ '1' := by
          intro hc1
          exact hh.2 (by rw [hc1]; rfl)
        have hdash : c ≠ '-' := charClass_ne c '-' hcc (by decide)
        have hmc : matchAt (c :: rest) = some (c :: rest) := by
          simp only [matchAt]
          rw [if_neg hdash, if_neg h0, if_neg h1, if_pos hcc, takeWhile_classC rest hrest]
        have hfind : findFirstTok (c :: rest) = some (c :: rest) := by
          simp only [findFirstTok]
          rw [hmc]
        rw [hgoalT, if_pos rfl]
        simp only [parseRawLiteral, hfind]
        rw [if_neg (by intro hx; injection hx with hx1 _; exact h0 hx1),
          if_neg (by intro hx; injection hx with hx1 _; exact h1 hx1)]
        have htilde : c ≠ '~' := charClass_ne c '~' hcc (by decide)
        split
        · next heq =>
            exfalso
            injection heq with hx1 _
            exact htilde hx1
        · rfl
      | false =>
        have hmc : matchAt ('~' :: c :: rest) = some ('~' :: c :: rest) := by
          simp only [matchAt]
          rw [if_neg (show ¬('~' = '-') by decide), if_neg (show ¬('~' = '0') by decide),
            if_neg (show ¬('~' = '1') by decide),
            if_neg (show ¬(isClassC '~' = true) by decide), if_pos trivial]
          rw [if_pos hcc, takeWhile_classC rest hrest]
        have hfind : findFirstTok ('~' :: c :: rest) = some ('~' :: c :: rest) := by
          simp only [findFirstTok]
          rw [hmc]
        rw [hgoalT, if_neg (by decide)]
        simp only [parseRawLiteral, hfind]
        rw [if_neg (by intro hx; injection hx with hx1 _; revert hx1; decide),
          if_neg (by intro hx; injection hx with hx1 _; revert hx1; decide)]

theorem dictSet_fresh (d : List (String × Nat × Nat)) (k : String) (v : Nat × Nat)
    (h : ∀ p ∈ d, p.1 ≠ k) : dictSet d k v = d ++ [(k, v)] := by
  induction d with
  | nil => rfl
  | cons p ps ih =>
    obtain ⟨k1, v1⟩ := p
    simp only [dictSet]
    rw [if_neg (h (k1, v1) (List.mem_cons_self _ _)),
      ih (fun q hq => h q (List.mem_cons_of_mem _ hq))]
    rfl

theorem dictFold_id (entries : List (String × Nat × Nat)) :
    ∀ acc : List (String × Nat × Nat),
      ((acc ++ entries).map Prod.fst).Nodup →
      entries.foldl (fun d p => dictSet d p.1 p.2) acc = acc ++ entries := by
  induction entries with
  | nil => intro acc _; simp
  | cons p ps ih =>
    intro acc h
    rw [List.foldl_cons]
    have hfresh : ∀ q ∈ acc, q.1 ≠ p.1 := by
      intro q hq hEq
      rw [List.map_append, List.map_cons, List.nodup_append] at h
      exact h.2.2 (List.mem_map.mpr ⟨q, hq, rfl⟩) (hEq ▸ List.mem_cons_self _ _)
    rw [dictSet_fresh acc p.1 p.2 hfresh]
    have h2 := ih (acc ++ [p]) (by
      have hx : acc ++ p :: ps = (acc ++ [p]) ++ ps := by simp
      rw [← hx]
      exact h)
    show List.foldl _ (acc ++ [p]) ps = acc ++ p :: ps
    rw [h2]
    simp

theorem bool_false_ne_true {b : Bool} (h : b = false) : ¬(b = true) := by
  rw [h]
  exact Bool.false_ne_true

theorem startsWith_dot_false (p : List Char) (c : Char) (rest : List Char)
    (hc : c ≠ '.') : startsWithL ('.' :: p) (c :: rest) = false := by
  have hd : decide ('.' = c) = false := decide_eq_false (fun h => hc h.symm)
  show (decide ('.' = c) && startsWithL p rest) = false
  rw [hd, Bool.false_and]

theorem headerStep_model (h : HeaderSt) (rest : List Char) :
    headerStep (some h) (".model ".data ++ rest) = some h := rfl

theorem headerStep_type (h : HeaderSt) :
    headerStep (some h) ".type memristor".data = some h := rfl

theorem headerStep_inputs (h : HeaderSt) (rest : List Char) :
    headerStep (some h) (".inputs ".data ++ rest) = some h := rfl

theorem headerStep_outputs (h : HeaderSt) (rest : List Char) :
    headerStep (some h) (".outputs ".data ++ rest) = some h := rfl

theorem headerStep_xbar (h : HeaderSt) :
    headerStep (some h) ".xbar".data = some h := rfl

theorem headerStep_end (h : HeaderSt) :
    headerStep (some h) ".end".data = some h := rfl

theorem headerStep_rows (r0 c0 : Nat) (i0 o0 : List (String × Nat × Nat)) (n : Nat) :
    headerStep (some ⟨r0, c0, i0, o0⟩) (".rows ".data ++ natToDecL n)
      = some ⟨n, c0, i0, o0⟩ := by
  have hsplit : splitWs (".rows ".data ++ natToDecL n) = [".rows".data, natToDecL n] := by
    rw [show ".rows ".data ++ natToDecL n = joinSep ' ' [".rows".data, natToDecL n] from rfl]
    refine splitWs_spaced _ ?_
    intro t ht
    rw [List.mem_cons, List.mem_singleton] at ht
    rcases ht with rfl | rfl
    · exact ⟨by decide, by decide⟩
    · exact ⟨natToDecL_ne_nil n, natToDecL_nospace n⟩
  have hc1 : startsWithL ".rows ".data (".rows ".data ++ natToDecL n) = true := rfl
  simp only [headerStep]
  rw [if_pos hc1, hsplit]
  show (decToNatL (natToDecL n)).map (fun m => ⟨m, c0, i0, o0⟩ : Nat → HeaderSt) = _
  rw [decToNatL_natToDecL n]
  rfl

theorem headerStep_cols (r0 c0 : Nat) (i0 o0 : List (String × Nat × Nat)) (n : Nat) :
    headerStep (some ⟨r0, c0, i0, o0⟩) (".columns ".data ++ natToDecL n)
      = some ⟨r0, n, i0, o0⟩ := by
  have hsplit : splitWs (".columns ".data ++ natToDecL n)
      = [".columns".data, natToDecL n] := by
    rw [show ".columns ".data ++ natToDecL n
      = joinSep ' ' [".columns".data, natToDecL n] from rfl]
    refine splitWs_spaced _ ?_
    intro t ht
    rw [List.mem_cons, List.mem_singleton] at ht
    rcases ht with rfl | rfl
    · exact ⟨by decide, by decide⟩
    · exact ⟨natToDecL_ne_nil n, natToDecL_nospace n⟩
  have hc1 : ¬(startsWithL ".rows ".data (".columns ".data ++ natToDecL n) = true) :=
    bool_false_ne_true rfl
  have hc2 : startsWithL ".columns ".data (".columns ".data ++ natToDecL n) = true := rfl
  simp only [headerStep]
  rw [if_neg hc1, if_pos hc2, hsplit]
  show (decToNatL (natToDecL n)).map (fun m => ⟨r0, m, i0, o0⟩ : Nat → HeaderSt) = _
  rw [decToNatL_natToDecL n]
  rfl

theorem headerStep_i (r0 c0 : Nat) (i0 o0 : List (String × Nat × Nat)) (nm : String)
    (ly idx : Nat) (hne : nm.data ≠ [])
    (hns : nm.data.all (fun ch => !isSpaceC ch) = true) :
    headerStep (some ⟨r0, c0, i0, o0⟩) (railLine ".i ".data (nm, ly, idx))
      = some ⟨r0, c0, dictSet i0 nm (ly, idx), o0⟩ := by
  obtain ⟨nmd⟩ := nm
  by_cases hly : ly = 0
  · subst hly
    have hline : railLine ".i ".data (String.mk nmd, 0, idx)
        = joinSep ' ' [".i".data, nmd, natToDecL idx] := by
      unfold railLine
      rw [if_pos rfl]
      simp only [List.append_assoc, List.cons_append]
      rfl
    have hsplit : splitWs (joinSep ' ' [".i".data, nmd, natToDecL idx])
        = [".i".data, nmd, natToDecL idx] := by
      refine splitWs_spaced _ ?_
      intro t ht
      rw [List.mem_cons, List.mem_cons, List.mem_singleton] at ht
      rcases ht with rfl | rfl | rfl
      · exact ⟨by decide, by decide⟩
      · exact ⟨hne, hns⟩
      · exact ⟨natToDecL_ne_nil idx, natToDecL_nospace idx⟩
    have hc1 : ¬(startsWithL ".rows ".data
        (joinSep ' ' [".i".data, nmd, natToDecL idx]) = true) := bool_false_ne_true rfl
    have hc2 : ¬(startsWithL ".columns ".data
        (joinSep ' ' [".i".data, nmd, natToDecL idx]) = true) := bool_false_ne_true rfl
    have hc3 : ¬(startsWithL ".inputs ".data
        (joinSep ' ' [".i".data, nmd, natToDecL idx]) = true) := bool_false_ne_true rfl
    have hc4 : startsWithL ".i ".data
        (joinSep ' ' [".i".data, nmd, natToDecL idx]) = true := rfl
    rw [hline]
    simp only [headerStep]
    rw [if_neg hc1, if_neg hc2, if_neg hc3, if_pos hc4, hsplit]
    show (decToNatL (natToDecL idx)).map
      (fun i => ⟨r0, c0, dictSet i0 (String.mk nmd) (0, i), o0⟩ : Nat → HeaderSt) = _
    rw [decToNatL_natToDecL idx]
    rfl
  · have hline : railLine ".i ".data (String.mk nmd, ly, idx)
        = joinSep ' ' [".i".data, nmd, natToDecL ly, natToDecL idx] := by
      unfold railLine
      rw [if_neg hly]
      simp only [List.append_assoc, List.cons_append]
      rfl
    have hsplit : splitWs (joinSep ' ' [".i".data, nmd, natToDecL ly, natToDecL idx])
        = [".i".data, nmd, natToDecL ly, natToDecL idx] := by
      refine splitWs_spaced _ ?_
      intro t ht
      rw [List.mem_cons, List.mem_cons, List.mem_cons, List.mem_singleton] at ht
      rcases ht with rfl | rfl | rfl | rfl
      · exact ⟨by decide, by decide⟩
      · exact ⟨hne, hns⟩
      · exact ⟨natToDecL_ne_nil ly, natToDecL_nospace ly⟩
      · exact ⟨natToDecL_ne_nil idx, natToDecL_nospace idx⟩
    have hc1 : ¬(startsWithL ".rows ".data
        (joinSep ' ' [".i".data, nmd, natToDecL ly, natToDecL idx]) = true) :=
      bool_false_ne_true rfl
    have hc2 : ¬(startsWithL ".columns ".data
        (joinSep ' ' [".i".data, nmd, natToDecL ly, natToDecL idx]) = true) :=
      bool_false_ne_true rfl
    have hc3 : ¬(startsWithL ".inputs ".data
        (joinSep ' ' [".i".data, nmd, natToDecL ly, natToDecL idx]) = true) :=
      bool_false_ne_true rfl
    have hc4 : startsWithL ".i ".data
        (joinSep ' ' [".i".data, nmd, natToDecL ly, natToDecL idx]) = true := rfl
    rw [hline]
    simp only [headerStep]
    rw [if_neg hc1, if_neg hc2, if_neg hc3, if_pos hc4, hsplit]
    show (match decToNatL (natToDecL ly), decToNatL (natToDecL idx) with
      | some ln, some i => some (⟨r0, c0, dictSet i0 (String.mk nmd) (ln, i), o0⟩ : HeaderSt)
      | _, _ => none) = _
    rw [decToNatL_natToDecL ly, decToNatL_natToDecL idx]

theorem headerStep_o (r0 c0 : Nat) (i0 o0 : List (String × Nat × Nat)) (nm : String)
    (ly idx : Nat) (hne : nm.data ≠ [])
    (hns : nm.data.all (fun ch => !isSpaceC ch) = true) :
    headerStep (some ⟨r0, c0, i0, o0⟩) (railLine ".o ".data (nm, ly, idx))
      = some ⟨r0, c0, i0, dictSet o0 nm (ly, idx)⟩ := by
  obtain ⟨nmd⟩ := nm
  by_cases hly : ly = 0
  · subst hly
    have hline : railLine ".o ".data (String.mk nmd, 0, idx)
        = joinSep ' ' [".o".data, nmd, natToDecL idx] := by
      unfold railLine
      rw [if_pos rfl]
      simp only [List.append_assoc, List.cons_append]
      rfl
    have hsplit : splitWs (joinSep ' ' [".o".data, nmd, natToDecL idx])
        = [".o".data, nmd, natToDecL idx] := by
      refine splitWs_spaced _ ?_
      intro t ht
      rw [List.mem_cons, List.mem_cons, List.mem_singleton] at ht
      rcases ht with rfl | rfl | rfl
      · exact ⟨by decide, by decide⟩
      · exact ⟨hne, hns⟩
      · exact ⟨natToDecL_ne_nil idx, natToDecL_nospace idx⟩
    have hc1 : ¬(startsWithL ".rows ".data
        (joinSep ' ' [".o".data, nmd, natToDecL idx]) = true) := bool_false_ne_true rfl
    have hc2 : ¬(startsWithL ".columns ".data
        (joinSep ' ' [".o".data, nmd, natToDecL idx]) = true) := bool_false_ne_true rfl
    have hc3 : ¬(startsWithL ".inputs ".data
        (joinSep ' ' [".o".data, nmd, natToDecL idx]) = true) := bool_false_ne_true rfl
    have hc4 : ¬(startsWithL ".i ".data
        (joinSep ' ' [".o".data, nmd, natToDecL idx]) = true) := bool_false_ne_true rfl
    have hc5 : startsWithL ".o ".data
        (joinSep ' ' [".o".data, nmd, natToDecL idx]) = true := rfl
    rw [hline]
    simp only [headerStep]
    rw [if_neg hc1, if_neg hc2, if_neg hc3, if_neg hc4, if_pos hc5, hsplit]
    show (decToNatL (natToDecL idx)).map
      (fun i => ⟨r0, c0, i0, dictSet o0 (String.mk nmd) (0, i)⟩ : Nat → HeaderSt) = _
    rw [decToNatL_natToDecL idx]
    rfl
  · have hline : railLine ".o ".data (String.mk nmd, ly, idx)
        = joinSep ' ' [".o".data, nmd, natToDecL ly, natToDecL idx] := by
      unfold railLine
      rw [if_neg hly]
      simp only [List.append_assoc, List.cons_append]
      rfl
    have hsplit : splitWs (joinSep ' ' [".o".data, nmd, natToDecL ly, natToDecL idx])
        = [".o".data, nmd, natToDecL ly, natToDecL idx] := by
      refine splitWs_spaced _ ?_
      intro t ht
      rw [List.mem_cons, List.mem_cons, List.mem_cons, List.mem_singleton] at ht
      rcases ht with rfl | rfl | rfl | rfl
      · exact ⟨by decide, by decide⟩
      · exact ⟨hne, hns⟩
      · exact ⟨natToDecL_ne_nil ly, natToDecL_nospace ly⟩
      · exact ⟨natToDecL_ne_nil idx, natToDecL_nospace idx⟩
    have hc1 : ¬(startsWithL ".rows ".data
        (joinSep ' ' [".o".data, nmd, natToDecL ly, natToDecL idx]) = true) :=
      bool_false_ne_true rfl
    have hc2 : ¬(startsWithL ".columns ".data
        (joinSep ' ' [".o".data, nmd, natToDecL ly, natToDecL idx]) = true) :=
      bool_false_ne_true rfl
    have hc3 : ¬(startsWithL ".inputs ".data
        (joinSep ' ' [".o".data, nmd, natToDecL ly, natToDecL idx]) = true) :=
      bool_false_ne_true rfl
    have hc4 : ¬(startsWithL ".i ".data
        (joinSep ' ' [".o".data, nmd, natToDecL ly, natToDecL idx]) = true) :=
      bool_false_ne_true rfl
    have hc5 : startsWithL ".o ".data
        (joinSep ' ' [".o".data, nmd, natToDecL ly, natToDecL idx]) = true := rfl
    rw [hline]
    simp only [headerStep]
    rw [if_neg hc1, if_neg hc2, if_neg hc3, if_neg hc4, if_pos hc5, hsplit]
    show (match decToNatL (natToDecL ly), decToNatL (natToDecL idx) with
      | some ln, some i => some (⟨r0, c0, i0, dictSet o0 (String.mk nmd) (ln, i)⟩ : HeaderSt)
      | _, _ => none) = _
    rw [decToNatL_natToDecL ly, decToNatL_natToDecL idx]

theorem headerStep_nondot (h : HeaderSt) (c : Char) (rest : List Char)
    (hc : c ≠ '.') : headerStep (some h) (c :: rest) = some h := by
  simp only [headerStep]
  rw [if_neg (bool_false_ne_true (startsWith_dot_false "rows ".data c rest hc)),
    if_neg (bool_false_ne_true (startsWith_dot_false "columns ".data c rest hc)),
    if_neg (bool_false_ne_true (startsWith_dot_false "inputs ".data c rest hc)),
    if_neg (bool_false_ne_true (startsWith_dot_false "i ".data c rest hc)),
    if_neg (bool_false_ne_true (startsWith_dot_false "o ".data c rest hc))]

theorem classC_all_no_tab (t : List Char) (h : t.all isClassC = true) :
    t.all (fun ch => !(ch = '\t')) = true := by
  rw [List.all_eq_true] at *
  intro c hc
  have h2 := isClassC_not_tab c (h c hc)
  simp [h2]

theorem joinSep_cons_head (sep : Char) (t : List Char) (ts : List (List Char)) :
    ∃ x, joinSep sep (t :: ts) = t ++ x := by
  cases ts with
  | nil => exact ⟨[], (List.append_nil t).symm⟩
  | cons t2 ts2 => exact ⟨sep :: joinSep sep (t2 :: ts2), rfl⟩

theorem litToToken_head (l : Literal) (h : okLit l) :
    ∃ c rest, litToToken l = c :: rest ∧ c ≠ '.' ∧
      (litToToken l).all (fun ch => !(ch = '\t')) = true := by
  rcases h with h | h | ⟨hne, hcls, _⟩
  · exact ⟨'1', [], by rw [h]; rfl, by decide, by rw [h]; decide⟩
  · exact ⟨'0', [], by rw [h]; rfl, by decide, by rw [h]; decide⟩
  · obtain ⟨atom, pos⟩ := l
    obtain ⟨data⟩ := atom
    cases data with
    | nil => exact absurd rfl hne
    | cons c rest =>
      have hcr : (c :: rest).all isClassC = true := hcls
      rw [List.all_cons, Bool.and_eq_true] at hcr
      have hT : Literal.mk (String.mk (c :: rest)) pos ≠ TRUEL := by
        intro hEq
        have h1 : c :: rest = ['T', 'r', 'u', 'e'] :=
          congrArg (fun t : Literal => t.atom.data) hEq
        injection h1 with hcT _
        have hx := hcr.1
        rw [hcT] at hx
        revert hx
        decide
      have hF : Literal.mk (String.mk (c :: rest)) pos ≠ FALSEL := by
        intro hEq
        have h1 : c :: rest = ['F', 'a', 'l', 's', 'e'] :=
          congrArg (fun t : Literal => t.atom.data) hEq
        injection h1 with hcF _
        have hx := hcr.1
        rw [hcF] at hx
        revert hx
        decide
      have htok : litToToken (Literal.mk (String.mk (c :: rest)) pos)
          = if pos = true then c :: rest else '~' :: c :: rest := by
        unfold litToToken
        rw [if_neg hT, if_neg hF]
      cases pos with
      | true =>
        refine ⟨c, rest, by rw [htok]; rfl, charClass_ne c '.' hcr.1 (by decide), ?_⟩
        rw [htok, if_pos rfl]
        exact classC_all_no_tab _ hcls
      | false =>
        refine ⟨'~', c :: rest, by rw [htok]; rfl, by decide, ?_⟩
        rw [htok, if_neg (by decide)]
        rw [List.all_cons, Bool.and_eq_true]
        exact ⟨by decide, classC_all_no_tab _ hcls⟩

theorem headerFold_ins (ins : List (String × Nat × Nat)) (r0 c0 : Nat)
    (i0 o0 : List (String × Nat × Nat))
    (hns : ∀ p ∈ ins, p.1.data ≠ [] ∧ p.1.data.all (fun ch => !isSpaceC ch) = true) :
    (ins.map (railLine ".i ".data)).foldl headerStep (some ⟨r0, c0, i0, o0⟩)
      = some ⟨r0, c0, ins.foldl (fun d p => dictSet d p.1 p.2) i0, o0⟩ := by
  induction ins generalizing i0 with
  | nil => rfl
  | cons p ps ih =>
    rw [List.map_cons, List.foldl_cons]
    obtain ⟨hpne, hpns⟩ := hns p (List.mem_cons_self _ _)
    rw [headerStep_i r0 c0 i0 o0 p.1 p.2.1 p.2.2 hpne hpns]
    rw [ih (dictSet i0 p.1 (p.2.1, p.2.2)) (fun q hq => hns q (List.mem_cons_of_mem _ hq))]
    rfl

theorem headerFold_outs (outs : List (String × Nat × Nat)) (r0 c0 : Nat)
    (i0 o0 : List (String × Nat × Nat))
    (hns : ∀ p ∈ outs, p.1.data ≠ [] ∧ p.1.data.all (fun ch => !isSpaceC ch) = true) :
    (outs.map (railLine ".o ".data)).foldl headerStep (some ⟨r0, c0, i0, o0⟩)
      = some ⟨r0, c0, i0, outs.foldl (fun d p => dictSet d p.1 p.2) o0⟩ := by
  induction outs generalizing o0 with
  | nil => rfl
  | cons p ps ih =>
    rw [List.map_cons, List.foldl_cons]
    obtain ⟨hpne, hpns⟩ := hns p (List.mem_cons_self _ _)
    rw [headerStep_o r0 c0 i0 o0 p.1 p.2.1 p.2.2 hpne hpns]
    rw [ih (dictSet o0 p.1 (p.2.1, p.2.2)) (fun q hq => hns q (List.mem_cons_of_mem _ hq))]
    rfl

theorem headerFold_skipAll (lines : List (List Char)) (h : HeaderSt)
    (hhead : ∀ line ∈ lines, ∃ c rest, line = c :: rest ∧ c ≠ '.') :
    lines.foldl headerStep (some h) = some h := by
  induction lines with
  | nil => rfl
  | cons l ls ih =>
    obtain ⟨c, rest, hl, hc⟩ := hhead l (List.mem_cons_self _ _)
    rw [List.foldl_cons, hl, headerStep_nondot h c rest hc]
    exact ih (fun q hq => hhead q (List.mem_cons_of_mem _ hq))

theorem gridLineOf_head (cb : Xbar) (r : Nat) (hcols : 0 < cb.columns)
    (hok : ∀ c, c < cb.columns → okLit ((cb.matrix 0 r c).literal)) :
    ∃ c rest, gridLineOf cb r = c :: rest ∧ c ≠ '.' := by
  obtain ⟨k, hk⟩ : ∃ k, cb.columns = k + 1 := ⟨cb.columns - 1, by omega⟩
  unfold gridLineOf
  rw [hk, List.range_succ_eq_map, List.map_cons]
  obtain ⟨c0, rest0, htok, hdot, _⟩ :=
    litToToken_head ((cb.matrix 0 r 0).literal) (hok 0 (by omega))
  obtain ⟨x, hx⟩ := joinSep_cons_head '\t' (litToToken ((cb.matrix 0 r 0).literal))
    ((List.map Nat.succ (List.range k)).map fun c => litToToken ((cb.matrix 0 r c).literal))
  rw [hx, htok]
  exact ⟨c0, rest0 ++ x, List.cons_append c0 rest0 x, hdot⟩

theorem header_full (cb : Xbar)
    (hin : ∀ p ∈ cb.input_nanowires,
      p.1.data ≠ [] ∧ p.1.data.all (fun ch => !isSpaceC ch) = true)
    (hout : ∀ p ∈ cb.output_nanowires,
      p.1.data ≠ [] ∧ p.1.data.all (fun ch => !isSpaceC ch) = true)
    (hinK : (cb.input_nanowires.map Prod.fst).Nodup)
    (houtK : (cb.output_nanowires.map Prod.fst).Nodup)
    (hok : ∀ r c, r < cb.rows → c < cb.columns → okLit ((cb.matrix 0 r c).literal)) :
    (toStringLines cb).foldl headerStep (some ⟨0, 0, [], []⟩)
      = some ⟨cb.rows, cb.columns, cb.input_nanowires, cb.output_nanowires⟩ := by
  have hins : cb.input_nanowires.foldl (fun d p => dictSet d p.1 p.2) []
      = cb.input_nanowires := by
    have h2 := dictFold_id cb.input_nanowires [] (by simpa using hinK)
    simpa using h2
  have houts : cb.output_nanowires.foldl (fun d p => dictSet d p.1 p.2) []
      = cb.output_nanowires := by
    have h2 := dictFold_id cb.output_nanowires [] (by simpa using houtK)
    simpa using h2
  unfold toStringLines
  rw [List.foldl_append, List.foldl_append, List.foldl_append, List.foldl_append,
    List.foldl_append]
  have h6 : List.foldl headerStep (some (⟨0, 0, [], []⟩ : HeaderSt))
      [".model ".data ++ cb.name.data, ".type memristor".data,
        ".inputs ".data ++ joinSep ' ' ((inputVariablesOf cb).map String.data),
        ".outputs ".data ++ joinSep ' ' (cb.output_nanowires.map fun p => p.1.data),
        ".rows ".data ++ natToDecL cb.rows, ".columns ".data ++ natToDecL cb.columns]
      = some ⟨cb.rows, cb.columns, [], []⟩ := by
    rw [List.foldl_cons, headerStep_model]
    rw [List.foldl_cons, headerStep_type]
    rw [List.foldl_cons, headerStep_inputs]
    rw [List.foldl_cons, headerStep_outputs]
    rw [List.foldl_cons, headerStep_rows]
    rw [List.foldl_cons, headerStep_cols]
    rw [List.foldl_nil]
  rw [h6]
  rw [headerFold_ins _ _ _ _ _ hin]
  rw [headerFold_outs _ _ _ _ _ hout]
  rw [hins, houts]
  have hx : List.foldl headerStep
      (some (⟨cb.rows, cb.columns, cb.input_nanowires, cb.output_nanowires⟩ : HeaderSt))
      [".xbar".data]
      = some ⟨cb.rows, cb.columns, cb.input_nanowires, cb.output_nanowires⟩ := by
    rw [List.foldl_cons, headerStep_xbar, List.foldl_nil]
  rw [hx]
  have hgrid : (if cb.columns = 0 then []
      else (List.range cb.rows).map (gridLineOf cb)).foldl headerStep
        (some ⟨cb.rows, cb.columns, cb.input_nanowires, cb.output_nanowires⟩)
      = some ⟨cb.rows, cb.columns, cb.input_nanowires, cb.output_nanowires⟩ := by
    by_cases hcols : cb.columns = 0
    · rw [if_pos hcols]
      rfl
    · rw [if_neg hcols]
      refine headerFold_skipAll _ _ ?_
      intro line hline
      rw [List.mem_map] at hline
      obtain ⟨r, hr, rfl⟩ := hline
      rw [List.mem_range] at hr
      exact gridLineOf_head cb r (by omega) (fun c hc => hok r c hr hc)
  rw [hgrid]
  rw [List.foldl_cons, headerStep_end, List.foldl_nil]

theorem forall2_parse_map (lits : List Literal) (h : ∀ l ∈ lits, okLit l) :
    List.Forall₂ (fun t l => parseRawLiteral t = some l) (lits.map litToToken) lits := by
  induction lits with
  | nil => exact List.Forall₂.nil
  | cons l ls ih =>
    rw [List.map_cons]
    exact List.Forall₂.cons (parse_litToToken l (h l (List.mem_cons_self _ _)))
      (ih (fun q hq => h q (List.mem_cons_of_mem _ hq)))

theorem gridTokens_fold (r : Nat) (toks : List (List Char)) :
    ∀ (lits : List Literal),
      List.Forall₂ (fun t l => parseRawLiteral t = some l) toks lits →
      ∀ (c0 : Nat) (cb0 : Xbar),
      ∃ cb1, toks.foldl (gridTokensStep r) (some (c0, cb0))
          = some (c0 + toks.length, cb1)
        ∧ cb1.rows = cb0.rows ∧ cb1.columns = cb0.columns ∧ cb1.layers = cb0.layers
        ∧ cb1.input_nanowires = cb0.input_nanowires
        ∧ cb1.output_nanowires = cb0.output_nanowires
        ∧ ∀ l rr cc, cb1.matrix l rr cc
            = if l = 0 ∧ rr = r ∧ c0 ≤ cc ∧ cc < c0 + toks.length
              then ⟨r, cc, lits.getD (cc - c0) TRUEL, 0, false⟩
              else cb0.matrix l rr cc := by
  induction toks with
  | nil =>
    intro lits hp c0 cb0
    refine ⟨cb0, rfl, rfl, rfl, rfl, rfl, rfl, ?_⟩
    intro l rr cc
    rw [if_neg (by simp)]
  | cons t ts ih =>
    intro lits hp c0 cb0
    cases hp with
    | cons hpt hpts =>
      rename_i l0 ls
      rw [List.foldl_cons]
      have hstep : gridTokensStep r (some (c0, cb0)) t
          = some (c0 + 1, cb0.set_memristor r c0 l0) := by
        simp only [gridTokensStep]
        rw [hpt]
        rfl
      rw [hstep]
      obtain ⟨cb1, hfold, h1, h2, h3, h4, h5, hmat⟩ :=
        ih ls hpts (c0 + 1) (cb0.set_memristor r c0 l0)
      have hlen : (t :: ts).length = ts.length + 1 := List.length_cons t ts
      refine ⟨cb1, ?_, h1, h2, h3, h4, h5, ?_⟩
      · rw [hfold]
        congr 2
        omega
      · intro l rr cc
        rw [hmat l rr cc]
        by_cases hc : l = 0 ∧ rr = r ∧ c0 ≤ cc ∧ cc < c0 + (t :: ts).length
        · rw [if_pos hc]
          by_cases hcc : c0 + 1 ≤ cc
          · rw [if_pos ⟨hc.1, hc.2.1, hcc, by
              have := hc.2.2.2
              rw [hlen] at this
              omega⟩]
            rw [show cc - c0 = (cc - (c0 + 1)) + 1 from by omega, List.getD_cons_succ]
          · have hcc0 : cc = c0 := by
              have := hc.2.2.1
              omega
            rw [if_neg (fun hx => hcc hx.2.2.1)]
            simp only [Xbar.set_memristor]
            rw [if_pos ⟨hc.1, hc.2.1, hcc0⟩]
            rw [hcc0]
            simp
        · rw [if_neg hc]
          rw [if_neg (fun hx => hc ⟨hx.1, hx.2.1, by omega, by
            have := hx.2.2.2
            rw [hlen]
            omega⟩)]
          simp only [Xbar.set_memristor]
          rw [if_neg (fun hy => hc ⟨hy.1, hy.2.1, by omega, by
            have := hy.2.2
            rw [hlen]
            omega⟩)]

theorem gridLineStep_skipdot (r : Nat) (cbA : Xbar) (line : List Char)
    (hend : startsWithL ".end".data line = false)
    (hxbar : startsWithL ".xbar".data line = false) :
    gridLineStep (some (r, false, cbA)) line = some (r, false, cbA) := by
  simp only [gridLineStep]
  rw [hend, hxbar]
  simp

theorem railLine_shape (tag : List Char) (p : String × Nat × Nat) :
    ∃ x, railLine tag p = tag ++ x := by
  unfold railLine
  by_cases h : p.2.1 = 0
  · rw [if_pos h]
    exact ⟨p.1.data ++ (' ' :: natToDecL p.2.2), List.append_assoc _ _ _⟩
  · rw [if_neg h]
    exact ⟨_, by rw [List.append_assoc, List.append_assoc]⟩

theorem gridFold_skipLines (lines : List (List Char)) (r : Nat) (cbA : Xbar)
    (h : ∀ line ∈ lines, startsWithL ".end".data line = false
      ∧ startsWithL ".xbar".data line = false) :
    lines.foldl gridLineStep (some (r, false, cbA)) = some (r, false, cbA) := by
  induction lines with
  | nil => rfl
  | cons l ls ih =>
    obtain ⟨h1, h2⟩ := h l (List.mem_cons_self _ _)
    rw [List.foldl_cons, gridLineStep_skipdot r cbA l h1 h2]
    exact ih (fun q hq => h q (List.mem_cons_of_mem _ hq))

theorem forall2_parse_maps (f : Nat → Literal) (idxs : List Nat)
    (h : ∀ i ∈ idxs, okLit (f i)) :
    List.Forall₂ (fun t l => parseRawLiteral t = some l)
      (idxs.map fun i => litToToken (f i)) (idxs.map f) := by
  induction idxs with
  | nil => exact List.Forall₂.nil
  | cons i is ih =>
    rw [List.map_cons, List.map_cons]
    exact List.Forall₂.cons (parse_litToToken (f i) (h i (List.mem_cons_self _ _)))
      (ih (fun q hq => h q (List.mem_cons_of_mem _ hq)))

theorem splitTab_gridLine (cb : Xbar) (r : Nat) (hcols : 0 < cb.columns)
    (hok : ∀ c, c < cb.columns → okLit ((cb.matrix 0 r c).literal)) :
    splitTab (gridLineOf cb r)
      = (List.range cb.columns).map fun c => litToToken ((cb.matrix 0 r c).literal) := by
  obtain ⟨k, hk⟩ : ∃ k, cb.columns = k + 1 := ⟨cb.columns - 1, by omega⟩
  have hnt : ∀ u ∈ (List.range cb.columns).map
      fun c => litToToken ((cb.matrix 0 r c).literal),
      u.all (fun ch => !(ch = '\t')) = true := by
    intro u hu
    rw [List.mem_map] at hu
    obtain ⟨c, hc, rfl⟩ := hu
    rw [List.mem_range] at hc
    obtain ⟨_, _, _, _, hall⟩ := litToToken_head ((cb.matrix 0 r c).literal) (hok c hc)
    exact hall
  have hcons : (List.range cb.columns).map
      (fun c => litToToken ((cb.matrix 0 r c).literal))
      = litToToken ((cb.matrix 0 r 0).literal)
        :: ((List.range k).map Nat.succ).map
          (fun c => litToToken ((cb.matrix 0 r c).literal)) := by
    rw [hk, List.range_succ_eq_map, List.map_cons]
  unfold gridLineOf
  rw [hcons]
  rw [splitTab_join _ _ (by rw [← hcons]; exact hnt)]

theorem gridLineStep_row (cb : Xbar) (r : Nat) (cbA : Xbar) (hcols : 0 < cb.columns)
    (hok : ∀ c, c < cb.columns → okLit ((cb.matrix 0 r c).literal)) :
    ∃ cb1, gridLineStep (some (r, true, cbA)) (gridLineOf cb r) = some (r + 1, true, cb1)
      ∧ cb1.rows = cbA.rows ∧ cb1.columns = cbA.columns ∧ cb1.layers = cbA.layers
      ∧ cb1.input_nanowires = cbA.input_nanowires
      ∧ cb1.output_nanowires = cbA.output_nanowires
      ∧ ∀ l rr cc, cb1.matrix l rr cc
          = if l = 0 ∧ rr = r ∧ cc < cb.columns
            then ⟨r, cc, (cb.matrix 0 r cc).literal, 0, false⟩
            else cbA.matrix l rr cc := by
  obtain ⟨ch, cr, hl, hdot⟩ := gridLineOf_head cb r hcols hok
  have hend : startsWithL ".end".data (gridLineOf cb r) = false := by
    rw [hl]
    exact startsWith_dot_false "end".data ch cr hdot
  have hxbar : startsWithL ".xbar".data (gridLineOf cb r) = false := by
    rw [hl]
    exact startsWith_dot_false "xbar".data ch cr hdot
  have hsp := splitTab_gridLine cb r hcols hok
  have hfa : List.Forall₂ (fun t l => parseRawLiteral t = some l)
      ((List.range cb.columns).map fun c => litToToken ((cb.matrix 0 r c).literal))
      ((List.range cb.columns).map fun c => (cb.matrix 0 r c).literal) := by
    refine forall2_parse_maps _ _ ?_
    intro i hi
    rw [List.mem_range] at hi
    exact hok i hi
  obtain ⟨cb1, hfold, h1, h2, h3, h4, h5, hmat⟩ :=
    gridTokens_fold r ((List.range cb.columns).map
      fun c => litToToken ((cb.matrix 0 r c).literal))
      ((List.range cb.columns).map fun c => (cb.matrix 0 r c).literal) hfa 0 cbA
  have hlen : ((List.range cb.columns).map
      fun c => litToToken ((cb.matrix 0 r c).literal)).length = cb.columns := by
    simp
  refine ⟨cb1, ?_, h1, h2, h3, h4, h5, ?_⟩
  · simp only [gridLineStep, hend, hxbar, hsp, hfold]
    simp
  · intro l rr cc
    rw [hmat l rr cc]
    by_cases hc : l = 0 ∧ rr = r ∧ cc < cb.columns
    · rw [if_pos ⟨hc.1, hc.2.1, by omega, by rw [hlen]; omega⟩, if_pos hc]
      have hval : ((List.range cb.columns).map
          fun c => (cb.matrix 0 r c).literal).getD (cc - 0) TRUEL
          = (cb.matrix 0 r cc).literal := by
        rw [show cc - 0 = cc from rfl]
        rw [List.getD_eq_getElem _ _ (by simpa using hc.2.2)]
        simp
      rw [hval]
    · rw [if_neg (fun hx => hc ⟨hx.1, hx.2.1, by
        have := hx.2.2.2
        rw [hlen] at this
        omega⟩), if_neg hc]

theorem gridFold_rows (cb : Xbar) (hcols : 0 < cb.columns)
    (hok : ∀ r c, r < cb.rows → c < cb.columns → okLit ((cb.matrix 0 r c).literal)) :
    ∀ (k r0 : Nat) (cbA : Xbar), r0 + k ≤ cb.rows →
      ∃ cb1, ((List.range' r0 k).map (gridLineOf cb)).foldl gridLineStep
          (some (r0, true, cbA)) = some (r0 + k, true, cb1)
        ∧ cb1.rows = cbA.rows ∧ cb1.columns = cbA.columns ∧ cb1.layers = cbA.layers
        ∧ cb1.input_nanowires = cbA.input_nanowires
        ∧ cb1.output_nanowires = cbA.output_nanowires
        ∧ ∀ l rr cc, cb1.matrix l rr cc
            = if l = 0 ∧ r0 ≤ rr ∧ rr < r0 + k ∧ cc < cb.columns
              then ⟨rr, cc, (cb.matrix 0 rr cc).literal, 0, false⟩
              else cbA.matrix l rr cc := by
  intro k
  induction k with
  | zero =>
    intro r0 cbA _
    refine ⟨cbA, rfl, rfl, rfl, rfl, rfl, rfl, ?_⟩
    intro l rr cc
    rw [if_neg (by intro hx; omega)]
  | succ k ih =>
    intro r0 cbA hle
    rw [show List.range' r0 (k + 1) = r0 :: List.range' (r0 + 1) k from List.range'_succ _ _ _]
    rw [List.map_cons, List.foldl_cons]
    obtain ⟨cbR, hstep, r1, r2, r3, r4, r5, rmat⟩ :=
      gridLineStep_row cb r0 cbA hcols (fun c hc => hok r0 c (by omega) hc)
    rw [hstep]
    obtain ⟨cb1, hfold, h1, h2, h3, h4, h5, hmat⟩ := ih (r0 + 1) cbR (by omega)
    refine ⟨cb1, ?_, h1.trans r1, h2.trans r2, h3.trans r3, h4.trans r4, h5.trans r5, ?_⟩
    · rw [hfold]
      congr 2
      omega
    · intro l rr cc
      rw [hmat l rr cc, rmat l rr cc]
      by_cases hc : l = 0 ∧ r0 ≤ rr ∧ rr < r0 + (k + 1) ∧ cc < cb.columns
      · rw [if_pos hc]
        by_cases hrr : r0 + 1 ≤ rr
        · rw [if_pos ⟨hc.1, hrr, by omega, hc.2.2.2⟩]
        · have hr0 : rr = r0 := by omega
          rw [if_neg (fun hx => hrr hx.2.1), if_pos ⟨hc.1, hr0, hc.2.2.2⟩, hr0]
      · rw [if_neg hc, if_neg (fun hx => hc ⟨hx.1, by omega, by omega, hx.2.2.2⟩),
          if_neg (fun hy => hc ⟨hy.1, by omega, by omega, hy.2.2⟩)]

theorem gridLoop_full (cb : Xbar) (cbA : Xbar)
    (hok : ∀ r c, r < cb.rows → c < cb.columns → okLit ((cb.matrix 0 r c).literal)) :
    ∃ n cb1, (toStringLines cb).foldl gridLineStep (some (0, false, cbA))
        = some (n, false, cb1)
      ∧ cb1.rows = cbA.rows ∧ cb1.columns = cbA.columns ∧ cb1.layers = cbA.layers
      ∧ cb1.input_nanowires = cbA.input_nanowires
      ∧ cb1.output_nanowires = cbA.output_nanowires
      ∧ ∀ l rr cc, cb1.matrix l rr cc
          = if l = 0 ∧ rr < cb.rows ∧ cc < cb.columns
            then ⟨rr, cc, (cb.matrix 0 rr cc).literal, 0, false⟩
            else cbA.matrix l rr cc := by
  unfold toStringLines
  rw [List.foldl_append, List.foldl_append, List.foldl_append, List.foldl_append,
    List.foldl_append]
  have h6 : List.foldl gridLineStep (some ((0 : Nat), false, cbA))
      [".model ".data ++ cb.name.data, ".type memristor".data,
        ".inputs ".data ++ joinSep ' ' ((inputVariablesOf cb).map String.data),
        ".outputs ".data ++ joinSep ' ' (cb.output_nanowires.map fun p => p.1.data),
        ".rows ".data ++ natToDecL cb.rows, ".columns ".data ++ natToDecL cb.columns]
      = some (0, false, cbA) := rfl
  rw [h6]
  rw [gridFold_skipLines (cb.input_nanowires.map (railLine ".i ".data)) 0 cbA (by
    intro line hline
    rw [List.mem_map] at hline
    obtain ⟨p, _, rfl⟩ := hline
    obtain ⟨x, hx⟩ := railLine_shape ".i ".data p
    rw [hx]
    exact ⟨rfl, rfl⟩)]
  rw [gridFold_skipLines (cb.output_nanowires.map (railLine ".o ".data)) 0 cbA (by
    intro line hline
    rw [List.mem_map] at hline
    obtain ⟨p, _, rfl⟩ := hline
    obtain ⟨x, hx⟩ := railLine_shape ".o ".data p
    rw [hx]
    exact ⟨rfl, rfl⟩)]
  have hx6 : List.foldl gridLineStep (some ((0 : Nat), false, cbA)) [".xbar".data]
      = some (0, true, cbA) := rfl
  rw [hx6]
  by_cases hcols : cb.columns = 0
  · rw [if_pos hcols]
    have hnil : List.foldl gridLineStep (some ((0 : Nat), true, cbA))
        ([] : List (List Char)) = some (0, true, cbA) := rfl
    rw [hnil]
    have hend : List.foldl gridLineStep (some ((0 : Nat), true, cbA)) [".end".data]
        = some (0, false, cbA) := rfl
    rw [hend]
    refine ⟨0, cbA, rfl, rfl, rfl, rfl, rfl, rfl, ?_⟩
    intro l rr cc
    rw [if_neg (by intro hz; omega)]
  · rw [if_neg hcols]
    rw [List.range_eq_range']
    obtain ⟨cbG, hfold, g1, g2, g3, g4, g5, gmat⟩ :=
      gridFold_rows cb (by omega) hok cb.rows 0 cbA (by omega)
    rw [show (0 : Nat) + cb.rows = cb.rows from by omega] at hfold
    rw [hfold]
    have hend : List.foldl gridLineStep (some (cb.rows, true, cbG)) [".end".data]
        = some (cb.rows, false, cbG) := rfl
    rw [hend]
    refine ⟨cb.rows, cbG, rfl, g1, g2, g3, g4, g5, ?_⟩
    intro l rr cc
    rw [gmat l rr cc]
    by_cases hc : l = 0 ∧ rr < cb.rows ∧ cc < cb.columns
    · rw [if_pos ⟨hc.1, by omega, by
        have := hc.2.1
        omega, hc.2.2⟩, if_pos hc]
    · rw [if_neg (fun hz => hc ⟨hz.1, by
        have := hz.2.2.1
        omega, hz.2.2.2⟩), if_neg hc]

/-- C8 counterexample: the 1 x 1 crossbar whose cell atom is x_1 does not
round-trip: the regex character class at from_string line 390 has no
underscore, so the serialized token x_1 is re-parsed as the atom x —
refuting the claim for arbitrary crossbars. -/
theorem from_to_string_not_id :
    ∃ cb1, fromStringLines (toStringLines xbC8) = some cb1 ∧
      (cb1.matrix 0 0 0).literal ≠ (xbC8.matrix 0 0 0).literal := by
  refine ⟨_, rfl, ?_⟩
  decide

/-- from_string as the two folds: a computed header and a computed grid pass
determine the parse result. -/
theorem fromStringLines_eq (lines : List (List Char)) (h : HeaderSt)
    (st : Nat × Bool × Xbar)
    (hh : lines.foldl headerStep (some ⟨0, 0, [], []⟩) = some h)
    (hg : lines.foldl gridLineStep (some (0, false,
      { mkXbar h.rows h.cols with input_nanowires := h.ins, output_nanowires := h.outs }))
      = some st) :
    fromStringLines lines = some st.2.2 := by
  unfold fromStringLines
  rw [hh]
  show (match lines.foldl gridLineStep (some (0, false,
      { mkXbar h.rows h.cols with input_nanowires := h.ins, output_nanowires := h.outs }))
      with
    | none => none
    | some st2 => some st2.2.2) = some st.2.2
  rw [hg]

/-- C8 (amended): for every crossbar whose rail names are nonempty and
whitespace-free with duplicate-free key lists, and whose layer-0 in-bounds
cell literals are the constants or have a nonempty atom over the regex
character class (positive atoms not beginning with the digits 0 or 1),
parsing the serialized lines reproduces the row count, the column count,
both rail dictionaries, and the layer-0 literal grid cell by cell. -/
theorem from_to_string_roundtrip (cb : Xbar)
    (hin : ∀ p ∈ cb.input_nanowires,
      p.1.data ≠ [] ∧ p.1.data.all (fun ch => !isSpaceC ch) = true)
    (hout : ∀ p ∈ cb.output_nanowires,
      p.1.data ≠ [] ∧ p.1.data.all (fun ch => !isSpaceC ch) = true)
    (hinK : (cb.input_nanowires.map Prod.fst).Nodup)
    (houtK : (cb.output_nanowires.map Prod.fst).Nodup)
    (hok : ∀ r c, r < cb.rows → c < cb.columns → okLit ((cb.matrix 0 r c).literal)) :
    ∃ cb1, fromStringLines (toStringLines cb) = some cb1
      ∧ cb1.rows = cb.rows ∧ cb1.columns = cb.columns
      ∧ cb1.input_nanowires = cb.input_nanowires
      ∧ cb1.output_nanowires = cb.output_nanowires
      ∧ ∀ r c, r < cb.rows → c < cb.columns →
          (cb1.matrix 0 r c).literal = (cb.matrix 0 r c).literal := by
  obtain ⟨n, cbG, hfold, g1, g2, g3, g4, g5, gmat⟩ := gridLoop_full cb
    { mkXbar cb.rows cb.columns with input_nanowires := cb.input_nanowires, output_nanowires := cb.output_nanowires } hok
  refine ⟨cbG, ?_, g1, g2, g4, g5, ?_⟩
  · exact fromStringLines_eq (toStringLines cb)
      ⟨cb.rows, cb.columns, cb.input_nanowires, cb.output_nanowires⟩ (n, false, cbG)
      (header_full cb hin hout hinK houtK hok) hfold
  · intro r c hr hc
    rw [gmat 0 r c, if_pos ⟨rfl, hr, hc⟩]

/-- C8 witness: a 2 x 1 crossbar with class-only atoms a and positive, b and
negative, one input rail u and one output rail y satisfies every hypothesis
of the amended round trip. -/
theorem from_to_string_roundtrip_witness :
    (∀ p ∈ xbC8w.input_nanowires,
      p.1.data ≠ [] ∧ p.1.data.all (fun ch => !isSpaceC ch) = true) ∧
    (∀ p ∈ xbC8w.output_nanowires,
      p.1.data ≠ [] ∧ p.1.data.all (fun ch => !isSpaceC ch) = true) ∧
    (xbC8w.input_nanowires.map Prod.fst).Nodup ∧
    (xbC8w.output_nanowires.map Prod.fst).Nodup ∧
    (∀ r c, r < xbC8w.rows → c < xbC8w.columns →
      okLit ((xbC8w.matrix 0 r c).literal)) ∧
    (∃ cb1, fromStringLines (toStringLines xbC8w) = some cb1
      ∧ cb1.rows = xbC8w.rows ∧ cb1.columns = xbC8w.columns
      ∧ cb1.input_nanowires = xbC8w.input_nanowires
      ∧ cb1.output_nanowires = xbC8w.output_nanowires
      ∧ ∀ r c, r < xbC8w.rows → c < xbC8w.columns →
          (cb1.matrix 0 r c).literal = (xbC8w.matrix 0 r c).literal) := by
  have hok8 : ∀ r, r < xbC8w.rows → ∀ c, c < xbC8w.columns →
      okLit ((xbC8w.matrix 0 r c).literal) := by decide
  exact ⟨by decide, by decide, by decide, by decide,
    fun r c hr hc => hok8 r hr c hc,
    from_to_string_roundtrip xbC8w (by decide) (by decide) (by decide) (by decide)
      (fun r c hr hc => hok8 r hr c hc)⟩

end MemX
